import Mathlib

/-!
Verification of the simuCRNs mass-action CRN parser and model construction
(`simuCRNs/massActionCRN.py`).

The Python code is shallowly embedded as follows.

* Python strings are `List Char` (`Str`); `str.split`, `str.replace(" ","")`,
  the substring test `in` and the regex search for `[a-zA-Z]` are modelled by
  executable functions on character lists with the same semantics.
* `float` values appearing in the specification (initial concentrations, rate
  constants, stoichiometric coefficients) are modelled as rationals `ℚ`; the
  state passed to the derivative function and the derivative itself live in
  `ℝ` because the mass-action rate law raises states to possibly fractional
  powers.
* `OrderedDict` is an insertion-ordered association list; assignment to an
  existing key updates the value in place, assignment to a fresh key appends
  (`odInsert`).
* Python exceptions (`TypeError` in `_get_specie_and_stoc` and
  `_check_x0_np`, `ValueError` from `float(...)`, the `TypeError` raised by
  `reduce` on an empty iterable and the `ValueError`/`IndexError` raised by
  `np.vstack([])` / `r[0]` on malformed input) are modelled by `Except PyError`.
-/

/-- Python strings, as lists of characters. -/
abbrev Str := List Char

/-- A species-indexed vector of reals (one `np.array` of stoichiometry). -/
abbrev Vec := List ℚ

/-- Error kinds raised by the Python code.  `parseError` stands for the
`TypeError`s raised by `_get_specie_and_stoc` (no species letter found /
species not declared), `valueError` for the `ValueError` raised by a failing
`float(...)` conversion, `invalidInitialState` for the `TypeError` raised by
`_check_x0_np`, and `internalError` for the exceptions raised by
`reduce`/`np.vstack`/indexing on structurally malformed input. -/
inductive PyError where
  | parseError
  | valueError
  | invalidInitialState
  | internalError
deriving DecidableEq

deriving instance DecidableEq for Except

/-- The separator of a reversible reaction. -/
def sepRev : Str := ['<', '-', '>']

/-- The separator of an irreversible reaction. -/
def sepIrr : Str := ['-', '>']

/-- Fuel-driven worker for `pySplit`; `acc` holds the current chunk reversed.
The fuel is only a structural-recursion device: `pySplit` supplies enough of
it that the `0` case is never reached. -/
def pySplitAux (sep : Str) : Nat → Str → Str → List Str
  | 0, acc, l => [acc.reverse ++ l]
  | fuel + 1, acc, l =>
    match l with
    | [] => [acc.reverse]
    | c :: rest =>
      if sep.isPrefixOf (c :: rest) then
        acc.reverse :: pySplitAux sep fuel [] ((c :: rest).drop sep.length)
      else
        pySplitAux sep fuel (c :: acc) rest

/-- Python `str.split(sep)` for a non-empty separator: non-overlapping,
left-to-right splitting; always returns at least one (possibly empty) chunk.
Python raises on an empty separator, which never occurs in this code base;
we return `[l]` in that dead case to stay total. -/
def pySplit (sep l : Str) : List Str :=
  if sep.isEmpty then [l] else pySplitAux sep (l.length + 1) [] l

/-- Index of the first character matching the regex `[a-zA-Z]`
(`re.finditer(r"[a-zA-Z]", s)` and taking the first match start). -/
def firstAlphaIdx : Str → Option Nat
  | [] => none
  | c :: rest => if c.isAlpha then some 0 else (firstAlphaIdx rest).map (· + 1)

/-- Python `str.strip()` of surrounding whitespace, as performed by
`float(...)` on its argument. -/
def pyStrip (s : Str) : Str :=
  ((s.dropWhile Char.isWhitespace).reverse.dropWhile Char.isWhitespace).reverse

/-- Decimal value of a list of digit characters, most significant first. -/
def decodeDigits (s : Str) : Nat :=
  s.foldl (fun a c => a * 10 + (c.toNat - '0'.toNat)) 0

/-- Validates one digit group of a Python float literal (digits possibly
separated by single underscores, as in `1_000`) and returns the digits with
the underscores removed; `none` if the group is malformed. -/
def digitGroup? (s : Str) : Option Str :=
  let gs := pySplit ['_'] s
  if gs.all (fun g => !g.isEmpty && g.all Char.isDigit) then some gs.flatten else none

/-- Python `float(s)` restricted to the letter-free strings that can reach it
here (the fragment before the first `[a-zA-Z]` character never contains a
letter, so the `inf`/`nan`/exponent forms are unreachable): optional
surrounding whitespace, an optional sign, and decimal digit groups around at
most one decimal point.  Returns the exact rational value, `none` where
Python raises `ValueError`. -/
def pyFloat? (s : Str) : Option ℚ :=
  let t := pyStrip s
  let su : ℚ × Str :=
    match t with
    | '+' :: r => (1, r)
    | '-' :: r => (-1, r)
    | r => (1, r)
  match pySplit ['.'] su.2 with
  | [a] => (digitGroup? a).map (fun ds => su.1 * (decodeDigits ds : ℚ))
  | [a, b] =>
    if a.isEmpty && b.isEmpty then none
    else
      match (if a.isEmpty then some [] else digitGroup? a),
            (if b.isEmpty then some [] else digitGroup? b) with
      | some ia, some fb =>
        some (su.1 * ((decodeDigits ia : ℚ) + (decodeDigits fb : ℚ) / (10 : ℚ) ^ fb.length))
      | _, _ => none
  | _ => none

namespace massActionJSON

/-- Embedding of `massActionJSON._get_specie_and_stoc`: splits a token such
as `2.5Y` into the species name (from the first letter onwards) and the
coefficient (the prefix, `1` when empty). -/
def get_specie_and_stoc (species_name : List Str) (specie_in_reac : Str) :
    Except PyError (Str × ℚ) :=
  match firstAlphaIdx specie_in_reac with
  | none => .error .parseError
  | some i =>
    let specie_name := specie_in_reac.drop i
    if specie_name ∈ species_name then
      let specie_coeff_str := specie_in_reac.take i
      if specie_coeff_str.isEmpty then .ok (specie_name, 1)
      else
        match pyFloat? specie_coeff_str with
        | some c => .ok (specie_name, c)
        | none => .error .valueError
    else .error .parseError

/-- Pointwise negation of a stoichiometry vector (`-1 * array`). -/
def negVec (v : Vec) : Vec := v.map (fun q => -q)

/-- Pointwise sum of two stoichiometry vectors (`array + array`; the code
only ever adds vectors of equal length). -/
def vecAdd (a b : Vec) : Vec := List.zipWith (· + ·) a b

/-- The token loop of `_parse_reaction` over one side: each token is parsed
and its (sign-adjusted) coefficient is assigned — not accumulated — at the
species' index of the zero-initialised vector `acc`. -/
def parse_side_aux (species_name : List Str) (i_side : Nat) (acc : Vec) :
    List Str → Except PyError Vec
  | [] => .ok acc
  | tok :: toks =>
    match get_specie_and_stoc species_name tok with
    | .error e => .error e
    | .ok nc =>
      parse_side_aux species_name i_side
        (acc.set (species_name.indexOf nc.1) (if i_side = 0 then -nc.2 else nc.2)) toks

/-- One iteration of the `for i_side, side in enumerate(central_split)` loop
of `_parse_reaction`: split the side on `+` and fill a zero vector (the
length of the species list equals `len(self._x0)` in every reachable state,
both being built from the same JSON mapping). -/
def parse_side (species_name : List Str) (i_side : Nat) (side : Str) :
    Except PyError Vec :=
  let species_split := pySplit ['+'] side
  if side.isEmpty then .ok (List.replicate species_name.length 0)
  else parse_side_aux species_name i_side (List.replicate species_name.length 0) species_split

/-- The full side loop of `_parse_reaction`, carrying the running `i_side`. -/
def parse_sides (species_name : List Str) : Nat → List Str → Except PyError (List Vec)
  | _, [] => .ok []
  | i, s :: ss =>
    match parse_side species_name i s with
    | .error e => .error e
    | .ok v =>
      match parse_sides species_name (i + 1) ss with
      | .error e => .error e
      | .ok vs => .ok (v :: vs)

/-- Embedding of `massActionJSON._parse_reaction`.  Whitespace is removed,
the separator is `<->` when that substring occurs in the *original* string
and `->` otherwise, each chunk of the central split becomes one side vector,
and a reversible reaction appends the mirrored pair
`(-1*reaction[1], -1*reaction[0])`.  The result is the list of directional
terms, each term being the tuple of its side vectors (two sides for a
well-formed reaction string, but the code never checks the count). -/
def parse_reaction (species_name : List Str) (reaction_str : Str) :
    Except PyError (List (List Vec)) :=
  let clean_reaction := reaction_str.filter (fun c => c ≠ ' ')
  let separator := if sepRev <:+: reaction_str then sepRev else sepIrr
  let central_split := pySplit separator clean_reaction
  match parse_sides species_name 0 central_split with
  | .error e => .error e
  | .ok reaction =>
    if sepRev <:+: reaction_str then
      .ok [reaction, [negVec (reaction.getD 1 []), negVec (reaction.getD 0 [])]]
    else .ok [reaction]

/-- Embedding of `massActionJSON._get_reactions`: parse every declared
reaction string, in declaration order, keyed by the string itself. -/
def get_reactions (species_name : List Str) :
    List (Str × List ℚ) → Except PyError (List (Str × List (List Vec)))
  | [] => .ok []
  | (r, _) :: rest =>
    match parse_reaction species_name r with
    | .error e => .error e
    | .ok terms =>
      match get_reactions species_name rest with
      | .error e => .error e
      | .ok parsed => .ok ((r, terms) :: parsed)

/-- Assignment `d[k] = v` on an insertion-ordered dictionary: update in
place when the key exists, append otherwise. -/
def odInsert (d : List (Str × ℚ)) (k : Str) (v : ℚ) : List (Str × ℚ) :=
  if d.any (fun p => p.1 == k) then d.map (fun p => if p.1 = k then (k, v) else p)
  else d ++ [(k, v)]

/-- The rate name `"k" + ("" if j == 0 else "-") + str(i+1)` built by
`_get_rates` for the `j`-th declared rate of the reaction at 0-based
index `i`. -/
def rate_name (i j : Nat) : Str :=
  'k' :: ((if j = 0 then [] else ['-']) ++ (Nat.repr (i + 1)).toList)

/-- Embedding of `massActionJSON._get_rates`: one ordered-dictionary entry
per declared rate value, named `k{i+1}` for the first value of reaction `i`
and `k-{i+1}` for every later one. -/
def get_rates (reactions : List (Str × List ℚ)) : List (Str × ℚ) :=
  reactions.enum.foldl
    (fun rates p =>
      p.2.2.enum.foldl (fun rates2 q => odInsert rates2 (rate_name p.1 q.1) q.2) rates)
    []

end massActionJSON

/-- The parsed JSON specification handed to `massActionJSON`: the CRN name,
the ordered species mapping (name, initial relative concentration) and the
ordered reaction mapping (reaction string, declared rate values).  The
string-encoded floats of the JSON file are already converted to their
numeric values. -/
structure JsonSpec where
  name : Str
  species : List (Str × ℚ)
  reactions : List (Str × List ℚ)

/-- The `massActionCRN` object: constructor arguments plus the derived
fields computed by `__init__`. -/
structure massActionCRN where
  name : Str
  species_name : List Str
  x0 : List (Str × ℚ)
  rates : List (Str × ℚ)
  reactions : List (Str × List (List Vec))
  x0_np : Vec
  rates_np : Vec
  reaction_list : List (List Vec)
  reactants_matrix : List Vec
  gamma : List Vec
deriving DecidableEq

namespace massActionCRN

/-- `np.isclose(a, b)` with numpy's default tolerances
`rtol=1e-5, atol=1e-8`: true iff `|a - b| <= atol + rtol * |b|`. -/
abbrev np_isclose (a b : ℚ) : Prop :=
  |a - b| ≤ 1 / 100000000 + 1 / 100000 * |b|

/-- Embedding of `massActionCRN._get_reaction_list`:
`reduce(lambda a, b: a + b, list(reactions.values()))` concatenates the
per-reaction term lists; `reduce` raises `TypeError` on an empty iterable. -/
def get_reaction_list (reactions : List (Str × List (List Vec))) :
    Except PyError (List (List Vec)) :=
  match reactions with
  | [] => .error .internalError
  | _ => .ok (reactions.map Prod.snd).flatten

/-- Transpose of the `np.array` built from a list of equal-length rows
(`np.array(rows).T`): entry `(s, j)` of the result is entry `s` of row `j`.
On the ragged lists that `np.array` rejects this returns a junk value, but
every reachable call passes rows of one common length. -/
def transposeRows (rows : List Vec) : List Vec :=
  (List.range (rows.headD []).length).map (fun s => rows.map (fun r => r.getD s 0))

/-- `reduce(lambda a, b: a + b, x)` over the side vectors of one term: the
net stoichiometric change of the term. -/
def sumSides (t : List Vec) : Vec :=
  match t with
  | [] => []
  | v :: vs => vs.foldl massActionJSON.vecAdd v

/-- Embedding of `massActionCRN._get_gamma`: the stoichiometric matrix,
one column per directional term. -/
def get_gamma (reaction_list : List (List Vec)) : List Vec :=
  transposeRows (reaction_list.map sumSides)

/-- Embedding of `massActionCRN.__init__`, `_check_x0_np` included.  The
checks happen in source order: the initial state is validated first
(`InvalidInitialStateError` when `np.isclose(sum, 1.0)` fails), then the
reaction list is flattened (`reduce` raises on an empty reaction mapping),
then `np.vstack([r[0] for r in reaction_list])` raises when the list is
empty or some term tuple is empty. -/
def init (name : Str) (species_name : List Str) (x0 rates : List (Str × ℚ))
    (reactions : List (Str × List (List Vec))) : Except PyError massActionCRN :=
  let x0_np := x0.map Prod.snd
  if np_isclose x0_np.sum 1 then
    let rates_np := rates.map Prod.snd
    match get_reaction_list reactions with
    | .error e => .error e
    | .ok reaction_list =>
      if reaction_list.isEmpty then .error .internalError
      else if reaction_list.any (fun t => t.isEmpty) then .error .internalError
      else
        .ok
          { name := name
            species_name := species_name
            x0 := x0
            rates := rates
            reactions := reactions
            x0_np := x0_np
            rates_np := rates_np
            reaction_list := reaction_list
            reactants_matrix := reaction_list.map (fun t => t.headD [])
            gamma := get_gamma reaction_list }
  else .error .invalidInitialState

/-- Embedding of the closure returned by
`massActionCRN._mass_action_dynamic`:
`f(x, t0) = gamma.dot((x ** abs(reactants_matrix)).prod(axis=1) * rates_np)`.
States and derivatives are real vectors since the exponents may be
fractional. -/
noncomputable def mass_action_dynamic (m : massActionCRN) (x : List ℝ) (t0 : ℝ) : List ℝ :=
  let speed_vector : List ℝ :=
    List.zipWith
      (fun row k =>
        (List.zipWith (fun xi r => xi ^ ((|r| : ℚ) : ℝ)) x row).prod * ((k : ℚ) : ℝ))
      m.reactants_matrix m.rates_np
  m.gamma.map (fun grow => (List.zipWith (fun g sv => ((g : ℚ) : ℝ) * sv) grow speed_vector).sum)

end massActionCRN

namespace massActionJSON

/-- Embedding of `massActionJSON.parse`: read the species names and initial
state from the ordered species mapping, build the rate dictionary and the
parsed reactions, and hand everything to the `massActionCRN` constructor. -/
def parse (spec : JsonSpec) : Except PyError massActionCRN :=
  let species_name := spec.species.map Prod.fst
  let x0 := spec.species
  let rates := get_rates spec.reactions
  match get_reactions species_name spec.reactions with
  | .error e => .error e
  | .ok reactions => massActionCRN.init spec.name species_name x0 rates reactions

end massActionJSON

namespace massActionJSON

/-- The list of (species name, coefficient) pairs produced by running
`_get_specie_and_stoc` over a list of tokens, failing as soon as one token
fails.  This is a specification device used to talk about what the side
loop of `_parse_reaction` assigns. -/
def parse_tokens (sp : List Str) : List Str → Except PyError (List (Str × ℚ))
  | [] => .ok []
  | t :: ts =>
    match get_specie_and_stoc sp t with
    | .error e => .error e
    | .ok p =>
      match parse_tokens sp ts with
      | .error e => .error e
      | .ok ps => .ok (p :: ps)

/-- The rate entries contributed by the reactions of `rs` when the first of
them has 0-based reaction index `i0`, in declaration order, forward rate
before reverse rate: the intended content of the rate dictionary. -/
def named_rates_from (i0 : Nat) (rs : List (Str × List ℚ)) : List (Str × ℚ) :=
  ((rs.enumFrom i0).map (fun p => p.2.2.enum.map (fun q => (rate_name p.1 q.1, q.2)))).flatten

end massActionJSON

/-- The list of decimal digit characters of `n`, most significant first;
this is what `Nat.toDigitsCore` computes when given enough fuel. -/
def digitsRepr (n : Nat) : Str :=
  if h : n / 10 = 0 then [Nat.digitChar (n % 10)]
  else digitsRepr (n / 10) ++ [Nat.digitChar (n % 10)]
decreasing_by
  exact Nat.div_lt_self (Nat.pos_of_ne_zero (fun hn => h (by simp [hn]))) (by omega)

/-! ### The concrete scenario of the specification -/

/-- The concrete scenario: species X, Y, Z with initial concentrations
0.5, 0.25, 0.25 and the single reversible reaction `2X + 3Y <-> Z` with
rates 0.0001 and 0.000008. -/
def exampleSpec : JsonSpec :=
  { name := ("crn").toList
    species := [(("X").toList, 1/2), (("Y").toList, 1/4), (("Z").toList, 1/4)]
    reactions := [(("2X + 3Y <-> Z").toList, [1/10000, 1/125000])] }

/-- The model that parsing `exampleSpec` produces. -/
def exampleCRN : massActionCRN :=
  { name := ("crn").toList
    species_name := [['X'], ['Y'], ['Z']]
    x0 := [(['X'], 1/2), (['Y'], 1/4), (['Z'], 1/4)]
    rates := [(['k', '1'], 1/10000), (['k', '-', '1'], 1/125000)]
    reactions := [(("2X + 3Y <-> Z").toList,
      [[[-2, -3, 0], [0, 0, 1]], [[0, 0, -1], [2, 3, 0]]])]
    x0_np := [1/2, 1/4, 1/4]
    rates_np := [1/10000, 1/125000]
    reaction_list := [[[-2, -3, 0], [0, 0, 1]], [[0, 0, -1], [2, 3, 0]]]
    reactants_matrix := [[-2, -3, 0], [0, 0, -1]]
    gamma := [[-2, 2], [-3, 3], [1, -1]] }

/-! ### Basic lemmas about the string utilities -/

theorem pySplitAux_ne_nil (sep : Str) (fuel : Nat) (acc l : Str) :
    pySplitAux sep fuel acc l ≠ [] := by
  induction fuel generalizing acc l with
  | zero => simp [pySplitAux]
  | succ fuel ih =>
    cases l with
    | nil => simp [pySplitAux]
    | cons c rest =>
      simp only [pySplitAux]
      split
      · simp
      · exact ih _ _

theorem pySplit_ne_nil (sep l : Str) : pySplit sep l ≠ [] := by
  unfold pySplit
  split
  · simp
  · exact pySplitAux_ne_nil _ _ _ _

theorem two_le_pySplitAux_of_infix (sep : Str) (hsep : sep ≠ []) :
    ∀ (fuel : Nat) (l acc : Str), l.length < fuel → sep <:+: l →
      2 ≤ (pySplitAux sep fuel acc l).length := by
  intro fuel
  induction fuel with
  | zero => intro l acc h; omega
  | succ fuel ih =>
    intro l acc hlen hinf
    cases l with
    | nil =>
      exact absurd (List.eq_nil_of_infix_nil hinf) hsep
    | cons c rest =>
      simp only [pySplitAux]
      split
      · have := pySplitAux_ne_nil sep fuel [] ((c :: rest).drop sep.length)
        simp only [List.length_cons]
        have hpos := List.length_pos.mpr this
        omega
      · rename_i hnp
        have hinf2 : sep <:+: rest := by
          rcases List.infix_cons_iff.mp hinf with hpre | hinf2
          · exact absurd (List.isPrefixOf_iff_prefix.mpr hpre) hnp
          · exact hinf2
        have : rest.length < fuel := by
          simp only [List.length_cons] at hlen; omega
        exact ih rest (c :: acc) this hinf2

theorem two_le_pySplit_of_infix (sep l : Str) (hsep : sep ≠ []) (h : sep <:+: l) :
    2 ≤ (pySplit sep l).length := by
  unfold pySplit
  split
  · rename_i he; exact absurd (List.isEmpty_iff.mp he) hsep
  · exact two_le_pySplitAux_of_infix sep hsep _ _ _ (Nat.lt_succ_self _) h

theorem infix_filter_of_all {α : Type} (p : α → Bool) (s l : List α) (h : s <:+: l)
    (hs : ∀ c ∈ s, p c = true) : s <:+: l.filter p := by
  rcases h with ⟨a, b, rfl⟩
  refine ⟨a.filter p, b.filter p, ?_⟩
  simp [List.filter_append, List.filter_eq_self.mpr hs]

theorem firstAlphaIdx_eq_none_iff (s : Str) :
    firstAlphaIdx s = none ↔ ∀ c ∈ s, ¬ c.isAlpha = true := by
  induction s with
  | nil => simp [firstAlphaIdx]
  | cons c rest ih =>
    simp only [firstAlphaIdx]
    split
    · rename_i h
      simp [h]
    · rename_i h
      simp [h, ih]

theorem firstAlphaIdx_spec (s : Str) (i : Nat) (h : firstAlphaIdx s = some i) :
    i < s.length ∧ (s.getD i ' ').isAlpha = true ∧
      ∀ j, j < i → (s.getD j ' ').isAlpha = false := by
  induction s generalizing i with
  | nil => simp [firstAlphaIdx] at h
  | cons c rest ih =>
    simp only [firstAlphaIdx] at h
    split at h
    · rename_i hc
      cases h
      simpa using hc
    · rename_i hc
      rcases Option.map_eq_some'.mp h with ⟨i', hi', rfl⟩
      obtain ⟨h1, h2, h3⟩ := ih i' hi'
      refine ⟨by simpa using h1, by simpa using h2, ?_⟩
      intro j hj
      cases j with
      | zero => simpa using Bool.not_eq_true _ ▸ (by simpa using hc)
      | succ j' => simpa using h3 j' (by omega)

theorem firstAlphaIdx_eq_some_of (s : Str) (i : Nat) (hi : i < s.length)
    (ha : (s.getD i ' ').isAlpha = true)
    (hmin : ∀ j, j < i → (s.getD j ' ').isAlpha = false) :
    firstAlphaIdx s = some i := by
  induction s generalizing i with
  | nil => simp at hi
  | cons c rest ih =>
    cases i with
    | zero =>
      have hc : c.isAlpha = true := by simpa using ha
      simp [firstAlphaIdx, hc]
    | succ i' =>
      have hc : c.isAlpha = false := by simpa using hmin 0 (Nat.succ_pos _)
      have := ih i' (by simpa using hi) (by simpa using ha)
        (fun j hj => by simpa using hmin (j + 1) (by omega))
      simp [firstAlphaIdx, hc, this]

/-! ### Lemmas about side and reaction parsing -/

namespace massActionJSON

theorem parse_side_aux_length (sp : List Str) (i : Nat) (acc : Vec) (toks : List Str)
    (v : Vec) (h : parse_side_aux sp i acc toks = .ok v) : v.length = acc.length := by
  induction toks generalizing acc with
  | nil =>
    simp only [parse_side_aux] at h
    cases h
    rfl
  | cons tok toks ih =>
    simp only [parse_side_aux] at h
    split at h
    · cases h
    · have := ih _ h
      simpa using this

theorem parse_side_length (sp : List Str) (i : Nat) (side : Str) (v : Vec)
    (h : parse_side sp i side = .ok v) : v.length = sp.length := by
  unfold parse_side at h
  split at h
  · cases h; simp
  · have := parse_side_aux_length _ _ _ _ _ h
    simpa using this

theorem parse_sides_ok_spec (sp : List Str) (i : Nat) (sides : List Str)
    (vs : List Vec) (h : parse_sides sp i sides = .ok vs) :
    vs.length = sides.length ∧ ∀ v ∈ vs, v.length = sp.length := by
  induction sides generalizing i vs with
  | nil =>
    simp only [parse_sides] at h
    cases h
    simp
  | cons s ss ih =>
    simp only [parse_sides] at h
    split at h
    · cases h
    · rename_i v hv
      split at h
      · cases h
      · rename_i vs' hvs'
        cases h
        obtain ⟨h1, h2⟩ := ih _ _ hvs'
        refine ⟨by simp [h1], ?_⟩
        intro w hw
        rcases List.mem_cons.mp hw with rfl | hw
        · exact parse_side_length _ _ _ _ hv
        · exact h2 w hw

theorem parse_sides_getD (sp : List Str) (i : Nat) (sides : List Str)
    (vs : List Vec) (h : parse_sides sp i sides = .ok vs) (k : Nat) (hk : k < sides.length) :
    parse_side sp (i + k) (sides.getD k []) = .ok (vs.getD k []) := by
  induction sides generalizing i vs k with
  | nil => simp at hk
  | cons s ss ih =>
    simp only [parse_sides] at h
    split at h
    · cases h
    · rename_i v hv
      split at h
      · cases h
      · rename_i vs' hvs'
        cases h
        cases k with
        | zero => simpa using hv
        | succ k' =>
          have := ih (i + 1) vs' hvs' k' (by simpa using hk)
          simpa [Nat.add_assoc, Nat.add_comm 1 k'] using this

theorem parse_reaction_ok_spec (sp : List Str) (r : Str) (ts : List (List Vec))
    (h : parse_reaction sp r = .ok ts) :
    ∃ sides,
      parse_sides sp 0
          (pySplit (if sepRev <:+: r then sepRev else sepIrr)
            (r.filter (fun c => c ≠ ' '))) = .ok sides ∧
        ((sepRev <:+: r ∧ ts = [sides, [negVec (sides.getD 1 []), negVec (sides.getD 0 [])]]) ∨
          (¬ sepRev <:+: r ∧ ts = [sides])) := by
  unfold parse_reaction at h
  by_cases hsep : sepRev <:+: r
  · rw [if_pos hsep]
    simp only [if_pos hsep] at h
    split at h
    · cases h
    · rename_i sides hsides
      cases h
      exact ⟨sides, hsides, Or.inl ⟨hsep, rfl⟩⟩
  · rw [if_neg hsep]
    simp only [if_neg hsep] at h
    split at h
    · cases h
    · rename_i sides hsides
      cases h
      exact ⟨sides, hsides, Or.inr ⟨hsep, rfl⟩⟩

theorem parse_side_aux_ok_iff (sp : List Str) (i : Nat) (acc : Vec) (toks : List Str) :
    (∃ v, parse_side_aux sp i acc toks = .ok v) ↔
      ∀ tok ∈ toks, ∃ p, get_specie_and_stoc sp tok = .ok p := by
  induction toks generalizing acc with
  | nil => simp [parse_side_aux]
  | cons tok toks ih =>
    simp only [parse_side_aux]
    constructor
    · rintro ⟨v, hv⟩
      split at hv
      · cases hv
      · rename_i p hp
        intro t ht
        rcases List.mem_cons.mp ht with rfl | ht
        · exact ⟨p, hp⟩
        · exact (ih _).mp ⟨v, hv⟩ t ht
    · intro hall
      obtain ⟨p, hp⟩ := hall tok (List.mem_cons_self _ _)
      rw [hp]
      exact (ih _).mpr (fun t ht => hall t (List.mem_cons_of_mem _ ht))

theorem parse_side_ok_iff (sp : List Str) (i : Nat) (side : Str) :
    (∃ v, parse_side sp i side = .ok v) ↔
      (side.isEmpty ∨ ∀ tok ∈ pySplit ['+'] side, ∃ p, get_specie_and_stoc sp tok = .ok p) := by
  unfold parse_side
  split
  · rename_i he
    simp [he]
  · rename_i he
    have he2 : side.isEmpty = false := by simpa using he
    rw [he2]
    simp only [Bool.false_eq_true, false_or]
    exact parse_side_aux_ok_iff sp i _ _

theorem parse_sides_ok_iff (sp : List Str) (i : Nat) (sides : List Str) :
    (∃ vs, parse_sides sp i sides = .ok vs) ↔
      ∀ s ∈ sides,
        (s.isEmpty ∨ ∀ tok ∈ pySplit ['+'] s, ∃ p, get_specie_and_stoc sp tok = .ok p) := by
  induction sides generalizing i with
  | nil => simp [parse_sides]
  | cons s ss ih =>
    simp only [parse_sides]
    constructor
    · rintro ⟨vs, hvs⟩
      split at hvs
      · cases hvs
      · rename_i v hv
        split at hvs
        · cases hvs
        · rename_i vs' hvs'
          intro t ht
          rcases List.mem_cons.mp ht with rfl | ht
          · exact (parse_side_ok_iff sp i t).mp ⟨v, hv⟩
          · exact (ih (i + 1)).mp ⟨vs', hvs'⟩ t ht
    · intro hall
      obtain ⟨v, hv⟩ := (parse_side_ok_iff sp i s).mpr (hall s (List.mem_cons_self _ _))
      obtain ⟨vs', hvs'⟩ := (ih (i + 1)).mpr (fun t ht => hall t (List.mem_cons_of_mem _ ht))
      exact ⟨v :: vs', by rw [hv, hvs']⟩

theorem parse_reaction_ok_iff (sp : List Str) (r : Str) :
    (∃ ts, parse_reaction sp r = .ok ts) ↔
      ∀ side ∈
        pySplit (if sepRev <:+: r then sepRev else sepIrr) (r.filter (fun c => c ≠ ' ')),
        (side.isEmpty ∨ ∀ tok ∈ pySplit ['+'] side, ∃ p, get_specie_and_stoc sp tok = .ok p) := by
  rw [← parse_sides_ok_iff sp 0]
  unfold parse_reaction
  constructor
  · rintro ⟨ts, hts⟩
    obtain ⟨sides, hsides, _⟩ := parse_reaction_ok_spec sp r ts (by
      unfold parse_reaction
      exact hts)
    exact ⟨sides, hsides⟩
  · rintro ⟨vs, hvs⟩
    by_cases hsep : sepRev <:+: r
    · simp only [if_pos hsep] at hvs ⊢
      rw [hvs]
      exact ⟨_, rfl⟩
    · simp only [if_neg hsep] at hvs ⊢
      rw [hvs]
      exact ⟨_, rfl⟩

end massActionJSON

/-! ### The per-token view of one side and the overwrite semantics -/

namespace massActionJSON


theorem get_specie_and_stoc_mem (sp : List Str) (tok : Str) (p : Str × ℚ)
    (h : get_specie_and_stoc sp tok = .ok p) : p.1 ∈ sp := by
  simp only [get_specie_and_stoc] at h
  split at h
  · cases h
  · split at h
    · rename_i hmem
      split at h
      · cases h
        exact hmem
      · split at h
        · cases h
          exact hmem
        · cases h
    · cases h

theorem parse_tokens_mem (sp : List Str) (toks : List Str) (L : List (Str × ℚ))
    (h : parse_tokens sp toks = .ok L) : ∀ q ∈ L, q.1 ∈ sp := by
  induction toks generalizing L with
  | nil =>
    simp only [parse_tokens] at h
    cases h
    simp
  | cons t ts ih =>
    simp only [parse_tokens] at h
    split at h
    · cases h
    · rename_i p hp
      split at h
      · cases h
      · rename_i ps hps
        cases h
        intro q hq
        rcases List.mem_cons.mp hq with rfl | hq
        · exact get_specie_and_stoc_mem sp t q hp
        · exact ih ps hps q hq

theorem parse_side_aux_append (sp : List Str) (i : Nat) (acc : Vec)
    (toks1 toks2 : List Str) :
    parse_side_aux sp i acc (toks1 ++ toks2) =
      match parse_side_aux sp i acc toks1 with
      | .error e => .error e
      | .ok w => parse_side_aux sp i w toks2 := by
  induction toks1 generalizing acc with
  | nil => simp [parse_side_aux]
  | cons t ts ih =>
    simp only [List.cons_append, parse_side_aux]
    split
    · rfl
    · exact ih _

theorem parse_tokens_append (sp : List Str) (toks1 toks2 : List Str) :
    parse_tokens sp (toks1 ++ toks2) =
      match parse_tokens sp toks1 with
      | .error e => .error e
      | .ok L1 =>
        match parse_tokens sp toks2 with
        | .error e => .error e
        | .ok L2 => .ok (L1 ++ L2) := by
  induction toks1 with
  | nil =>
    simp only [List.nil_append, parse_tokens]
    cases hx : parse_tokens sp toks2 <;> simp
  | cons t ts ih =>
    simp only [List.cons_append, parse_tokens, List.append_eq, ih]
    cases hg : get_specie_and_stoc sp t
    · simp
    · cases hts : parse_tokens sp ts
      · simp
      · cases ht2 : parse_tokens sp toks2
        · simp
        · simp

theorem str_beq_inst_eq : (List.instBEq : BEq Str) = instBEqOfDecidableEq :=
  lawful_beq_subsingleton _ _

theorem str_indexOf_lt_length {x : Str} {l : List Str} (h : x ∈ l) :
    l.indexOf x < l.length := by
  rw [str_beq_inst_eq]
  exact List.indexOf_lt_length.mpr h

theorem str_mem_of_indexOf_lt_length {x : Str} {l : List Str} (h : l.indexOf x < l.length) :
    x ∈ l := by
  rw [str_beq_inst_eq] at h
  exact List.indexOf_lt_length.mp h

theorem str_indexOf_inj {l : List Str} {x y : Str} (hx : x ∈ l) (hy : y ∈ l) :
    l.indexOf x = l.indexOf y ↔ x = y := by
  rw [str_beq_inst_eq]
  exact List.indexOf_inj hx hy

theorem parse_side_aux_last (sp : List Str) (i : Nat) (toks : List Str) :
    ∀ (acc v : Vec) (L : List (Str × ℚ)),
      acc.length = sp.length →
      parse_side_aux sp i acc toks = .ok v →
      parse_tokens sp toks = .ok L →
      ∀ name : Str,
        ((L.filter (fun q => q.1 = name)) = [] →
          v.getD (sp.indexOf name) 0 = acc.getD (sp.indexOf name) 0) ∧
        (∀ p, (L.filter (fun q => q.1 = name)).getLast? = some p →
          v.getD (sp.indexOf name) 0 = (if i = 0 then -p.2 else p.2)) := by
  induction toks using List.reverseRecOn with
  | nil =>
    intro acc v L hacc hok hL name
    simp only [parse_side_aux] at hok
    simp only [parse_tokens] at hL
    cases hok
    cases hL
    simp
  | append_singleton ts t ih =>
    intro acc v L hacc hok hL name
    rw [parse_side_aux_append] at hok
    rw [parse_tokens_append] at hL
    split at hok
    · cases hok
    · rename_i w hw
      split at hL
      · cases hL
      · rename_i L1 hL1
        split at hL
        · cases hL
        · rename_i L2 hL2
          cases hL
          simp only [parse_tokens] at hL2
          split at hL2
          · cases hL2
          · rename_i p hp
            cases hL2
            simp only [parse_side_aux] at hok
            rw [hp] at hok
            simp only [parse_side_aux] at hok
            cases hok
            have hwlen : w.length = sp.length := by
              rw [parse_side_aux_length sp i acc ts w hw, hacc]
            have hmem : p.1 ∈ sp := get_specie_and_stoc_mem sp t p hp
            have hidx : sp.indexOf p.1 < sp.length := str_indexOf_lt_length hmem
            by_cases hname : p.1 = name
            · subst hname
              constructor
              · intro hfil
                exfalso
                have hpin : p ∈ (L1 ++ [p]).filter (fun q => q.1 = p.1) := by
                  simp
                rw [hfil] at hpin
                simp at hpin
              · intro q hq
                have hfeq : (L1 ++ [p]).filter (fun q2 => q2.1 = p.1) =
                    L1.filter (fun q2 => q2.1 = p.1) ++ [p] := by
                  simp [List.filter_append]
                rw [hfeq, List.getLast?_append] at hq
                simp at hq
                subst hq
                have hlt : sp.indexOf p.1 < w.length := by rw [hwlen]; exact hidx
                rw [List.getD_eq_getElem _ _ (by simpa using hlt)]
                simp [List.getElem_set_self]
            · have hfil : (L1 ++ [p]).filter (fun q => q.1 = name) =
                  L1.filter (fun q => q.1 = name) := by
                simp [List.filter_append, hname]
              have hset : (w.set (sp.indexOf p.1) (if i = 0 then -p.2 else p.2)).getD
                  (sp.indexOf name) 0 = w.getD (sp.indexOf name) 0 := by
                by_cases hnm : name ∈ sp
                · have hne : sp.indexOf p.1 ≠ sp.indexOf name := by
                    intro he
                    exact hname ((str_indexOf_inj hmem hnm).mp he)
                  by_cases hlt : sp.indexOf name < sp.length
                  · rw [List.getD_eq_getElem _ _ (by simpa [hwlen] using hlt),
                      List.getD_eq_getElem _ _ (by rwa [hwlen]),
                      List.getElem_set_ne hne]
                  · exact absurd (str_indexOf_lt_length hnm) hlt
                · have hge : sp.length ≤ sp.indexOf name := by
                    by_contra hcon
                    exact hnm (str_mem_of_indexOf_lt_length (by omega))
                  rw [List.getD_eq_default _ _ (by simpa [hwlen] using hge),
                    List.getD_eq_default _ _ (by rwa [hwlen])]
              rw [hfil]
              obtain ⟨ih1, ih2⟩ := ih acc w L1 hacc hw hL1 name
              constructor
              · intro hf
                rw [hset]
                exact ih1 hf
              · intro q hq
                rw [hset]
                exact ih2 q hq

end massActionJSON

/-! ### Decimal numerals: `Nat.repr` produces injective, dash-free names -/


theorem toDigitsCore_eq_digitsRepr :
    ∀ (fuel n : Nat) (ds : Str), n < fuel →
      Nat.toDigitsCore 10 fuel n ds = digitsRepr n ++ ds := by
  intro fuel
  induction fuel with
  | zero => intro n ds h; omega
  | succ f ih =>
    intro n ds h
    by_cases hd : n / 10 = 0
    · simp only [Nat.toDigitsCore, hd, if_pos]
      rw [digitsRepr, dif_pos hd]
      simp
    · have hpos : 0 < n := Nat.pos_of_ne_zero (fun hn => hd (by simp [hn]))
      have hlt : n / 10 < n := Nat.div_lt_self hpos (by omega)
      simp only [Nat.toDigitsCore, hd, if_neg, if_false]
      rw [ih (n / 10) _ (by omega)]
      conv_rhs => rw [digitsRepr, dif_neg hd]
      simp

theorem repr_toList_eq (n : Nat) : (Nat.repr n).toList = digitsRepr n := by
  have h := toDigitsCore_eq_digitsRepr (n + 1) n [] (Nat.lt_succ_self n)
  simp only [Nat.repr, Nat.toDigits]
  rw [h]
  simp [List.asString, String.toList]

theorem digitChar_toNat_sub : ∀ d, d < 10 → (Nat.digitChar d).toNat - '0'.toNat = d := by
  decide

theorem digitChar_ne_dash : ∀ d, d < 10 → Nat.digitChar d ≠ '-' := by
  decide

theorem digitsRepr_foldl (n : Nat) :
    ∀ acc : Nat,
      (digitsRepr n).foldl (fun a c => a * 10 + (c.toNat - '0'.toNat)) acc =
        acc * 10 ^ (digitsRepr n).length + n := by
  induction n using Nat.strong_induction_on with
  | _ n ih =>
    intro acc
    by_cases hd : n / 10 = 0
    · rw [digitsRepr, dif_pos hd]
      have hn : n < 10 := by omega
      have hmod : n % 10 = n := Nat.mod_eq_of_lt hn
      simp only [List.foldl, List.length_singleton, pow_one]
      rw [digitChar_toNat_sub (n % 10) (Nat.mod_lt _ (by omega)), hmod]
    · have hpos : 0 < n := Nat.pos_of_ne_zero (fun hn => hd (by simp [hn]))
      have hlt : n / 10 < n := Nat.div_lt_self hpos (by omega)
      rw [digitsRepr, dif_neg hd]
      rw [List.foldl_append, ih (n / 10) hlt acc]
      simp only [List.foldl, List.length_append, List.length_singleton]
      rw [digitChar_toNat_sub (n % 10) (Nat.mod_lt _ (by omega))]
      rw [pow_succ, ← Nat.mul_assoc]
      generalize acc * 10 ^ (digitsRepr (n / 10)).length = A
      omega

theorem digitsRepr_inj {m n : Nat} (h : digitsRepr m = digitsRepr n) : m = n := by
  have hm := digitsRepr_foldl m 0
  have hn := digitsRepr_foldl n 0
  rw [h] at hm
  rw [hm] at hn
  simpa using hn

theorem digitsRepr_ne_nil (n : Nat) : digitsRepr n ≠ [] := by
  rw [digitsRepr]
  split <;> simp

theorem digitsRepr_ne_dash (n : Nat) : ∀ c ∈ digitsRepr n, c ≠ '-' := by
  induction n using Nat.strong_induction_on with
  | _ n ih =>
    intro c hc
    by_cases hd : n / 10 = 0
    · rw [digitsRepr, dif_pos hd] at hc
      simp at hc
      subst hc
      exact digitChar_ne_dash (n % 10) (Nat.mod_lt _ (by omega))
    · have hpos : 0 < n := Nat.pos_of_ne_zero (fun hn => hd (by simp [hn]))
      have hlt : n / 10 < n := Nat.div_lt_self hpos (by omega)
      rw [digitsRepr, dif_neg hd] at hc
      rcases List.mem_append.mp hc with hc | hc
      · exact ih (n / 10) hlt c hc
      · simp at hc
        subst hc
        exact digitChar_ne_dash (n % 10) (Nat.mod_lt _ (by omega))

namespace massActionJSON

theorem rate_name_eq (i j : Nat) :
    rate_name i j = 'k' :: ((if j = 0 then [] else ['-']) ++ digitsRepr (i + 1)) := by
  rw [rate_name, repr_toList_eq]

theorem rate_name_inj {i j i2 j2 : Nat} (hj : j ≤ 1) (hj2 : j2 ≤ 1)
    (h : rate_name i j = rate_name i2 j2) : i = i2 ∧ j = j2 := by
  rw [rate_name_eq, rate_name_eq] at h
  interval_cases j <;> interval_cases j2 <;> simp_all
  · have := digitsRepr_inj h
    omega
  · exfalso
    have hdm : '-' ∈ digitsRepr (i + 1) := by rw [h]; simp
    exact digitsRepr_ne_dash (i + 1) '-' hdm rfl
  · exfalso
    have hdm : '-' ∈ digitsRepr (i2 + 1) := by rw [← h]; simp
    exact digitsRepr_ne_dash (i2 + 1) '-' hdm rfl
  · have := digitsRepr_inj h
    omega

end massActionJSON

/-! ### Structure of the rate dictionary built by `_get_rates` -/

namespace massActionJSON


theorem odInsert_fresh (d : List (Str × ℚ)) (k : Str) (v : ℚ)
    (h : ∀ p ∈ d, p.1 ≠ k) : odInsert d k v = d ++ [(k, v)] := by
  have hc : d.any (fun p => p.1 == k) = false := by
    rw [List.any_eq_false]
    intro p hp
    simp only [beq_iff_eq]
    exact h p hp
  unfold odInsert
  rw [hc]
  simp

theorem fst_le_one_of_mem_enum {rl : List ℚ} (hlen : rl.length ≤ 2) {q : Nat × ℚ}
    (hq : q ∈ rl.enum) : q.1 ≤ 1 := by
  have := List.fst_lt_add_of_mem_enumFrom (n := 0) (by simpa [List.enum_eq_enumFrom] using hq)
  omega

theorem named_rates_from_key (i0 : Nat) (rs : List (Str × List ℚ))
    (hfmt : ∀ p ∈ rs, p.2.length ≤ 2) (q : Str × ℚ) (hq : q ∈ named_rates_from i0 rs) :
    ∃ i j, i0 ≤ i ∧ j ≤ 1 ∧ q.1 = rate_name i j := by
  induction rs generalizing i0 with
  | nil => simp [named_rates_from] at hq
  | cons r rest ih =>
    simp only [named_rates_from, List.enumFrom_cons, List.map_cons, List.flatten_cons,
      List.mem_append] at hq
    rcases hq with hq | hq
    · simp only [List.mem_map] at hq
      obtain ⟨jq, hjq, rfl⟩ := hq
      exact ⟨i0, jq.1, Nat.le_refl _,
        fst_le_one_of_mem_enum (hfmt r (List.mem_cons_self _ _)) hjq, rfl⟩
    · obtain ⟨i, j, hi, hj, he⟩ := ih (i0 + 1) (fun p hp => hfmt p (List.mem_cons_of_mem _ hp)) hq
      exact ⟨i, j, by omega, hj, he⟩

theorem get_rates_core (rs : List (Str × List ℚ)) :
    ∀ (i0 : Nat) (d : List (Str × ℚ)),
      (∀ p ∈ rs, p.2.length ≤ 2) →
      (∀ q ∈ d, ∀ i j, i0 ≤ i → j ≤ 1 → q.1 ≠ rate_name i j) →
      (rs.enumFrom i0).foldl
          (fun rates p =>
            p.2.2.enum.foldl (fun rates2 q => odInsert rates2 (rate_name p.1 q.1) q.2) rates)
          d = d ++ named_rates_from i0 rs := by
  induction rs with
  | nil => intro i0 d _ _; simp [named_rates_from]
  | cons r rest ih =>
    intro i0 d hfmt hd
    have hlen := hfmt r (List.mem_cons_self _ _)
    have hd0 : ∀ p ∈ d, p.1 ≠ rate_name i0 0 :=
      fun p hp he => hd p hp i0 0 (Nat.le_refl _) (by omega) he
    have hd1 : ∀ p ∈ d, p.1 ≠ rate_name i0 1 :=
      fun p hp he => hd p hp i0 1 (Nat.le_refl _) (by omega) he
    have hinner :
        r.2.enum.foldl (fun rates2 q => odInsert rates2 (rate_name i0 q.1) q.2) d =
          d ++ r.2.enum.map (fun q => (rate_name i0 q.1, q.2)) := by
      match hr : r.2 with
      | [] => simp
      | [a] =>
        simp only [List.enum, List.enumFrom, List.foldl, List.map]
        rw [odInsert_fresh d _ a hd0]
      | a :: b :: rest2 =>
        have hr2 : rest2 = [] := by
          rw [hr] at hlen
          simp only [List.length_cons] at hlen
          exact List.length_eq_zero.mp (by omega)
        subst hr2
        simp only [List.enum, List.enumFrom, List.foldl, List.map]
        rw [odInsert_fresh d _ a hd0]
        rw [odInsert_fresh (d ++ [(rate_name i0 0, a)]) (rate_name i0 1) b ?hfr]
        case hfr =>
          intro p hp he
          rcases List.mem_append.mp hp with hp | hp
          · exact hd1 p hp he
          · simp only [List.mem_singleton] at hp
            subst hp
            simp only at he
            have := rate_name_inj (by omega) (by omega) he
            omega
        simp
    rw [List.enumFrom_cons, List.foldl_cons]
    simp only at hinner ⊢
    rw [hinner]
    rw [ih (i0 + 1) _ (fun p hp => hfmt p (List.mem_cons_of_mem _ hp)) ?hfresh]
    case hfresh =>
      intro q hq i j hi hj he
      rcases List.mem_append.mp hq with hq | hq
      · exact hd q hq i j (by omega) hj he
      · simp only [List.mem_map] at hq
        obtain ⟨jq, hjq, rfl⟩ := hq
        simp only at he
        have hjq1 : jq.1 ≤ 1 := fst_le_one_of_mem_enum hlen hjq
        have := rate_name_inj hjq1 hj he
        omega
    simp only [named_rates_from, List.enumFrom_cons, List.map_cons, List.flatten_cons]
    rw [List.append_assoc]

theorem get_rates_eq_named (rs : List (Str × List ℚ))
    (hfmt : ∀ p ∈ rs, p.2.length ≤ 2) :
    get_rates rs = named_rates_from 0 rs := by
  have h := get_rates_core rs 0 [] hfmt (by simp)
  simpa [get_rates, List.enum_eq_enumFrom] using h

theorem named_rates_from_snd (i0 : Nat) (rs : List (Str × List ℚ)) :
    (named_rates_from i0 rs).map Prod.snd = (rs.map Prod.snd).flatten := by
  induction rs generalizing i0 with
  | nil => simp [named_rates_from]
  | cons r rest ih =>
    simp only [named_rates_from, List.enumFrom_cons, List.map_cons, List.flatten_cons,
      List.map_append]
    congr 1
    · rw [List.map_map]
      have he : (Prod.snd ∘ fun q : Nat × ℚ => (rate_name i0 q.1, q.2)) = Prod.snd := rfl
      rw [he, List.enum_eq_enumFrom, List.enumFrom_map_snd]
    · simpa [named_rates_from] using ih (i0 + 1)

end massActionJSON

/-! ### Structure of a successfully constructed model -/

theorem massActionCRN.init_ok (name : Str) (sp : List Str) (x0 rates : List (Str × ℚ))
    (reactions : List (Str × List (List Vec))) (m : massActionCRN)
    (h : massActionCRN.init name sp x0 rates reactions = .ok m) :
    m.name = name ∧ m.species_name = sp ∧ m.x0 = x0 ∧ m.rates = rates ∧
      m.reactions = reactions ∧ m.x0_np = x0.map Prod.snd ∧
      m.rates_np = rates.map Prod.snd ∧
      m.reaction_list = (reactions.map Prod.snd).flatten ∧
      m.reaction_list ≠ [] ∧ (∀ t ∈ m.reaction_list, t ≠ []) ∧
      m.reactants_matrix = m.reaction_list.map (fun t => t.headD []) ∧
      m.gamma = massActionCRN.get_gamma m.reaction_list ∧
      massActionCRN.np_isclose (x0.map Prod.snd).sum 1 := by
  unfold massActionCRN.init massActionCRN.get_reaction_list at h
  by_cases hclose : massActionCRN.np_isclose (x0.map Prod.snd).sum 1
  · simp only [if_pos hclose] at h
    split at h
    · simp at h
    · rename_i rl hrl
      have hrl2 : rl = (reactions.map Prod.snd).flatten := by
        split at hrl
        · simp at hrl
        · simp only [Except.ok.injEq] at hrl
          exact hrl.symm
      subst hrl2
      split at h
      · simp at h
      · rename_i hemp
        split at h
        · simp at h
        · rename_i hany
          cases h
          refine ⟨rfl, rfl, rfl, rfl, rfl, rfl, rfl, rfl, ?_, ?_, rfl, rfl, hclose⟩
          · simpa using hemp
          · intro t ht hte
            apply hany
            simp only [List.any_eq_true]
            exact ⟨t, ht, by simp [hte]⟩
  · simp only [if_neg hclose] at h
    simp at h

theorem massActionCRN.init_invalid_iff (name : Str) (sp : List Str)
    (x0 rates : List (Str × ℚ)) (reactions : List (Str × List (List Vec))) :
    massActionCRN.init name sp x0 rates reactions = .error .invalidInitialState ↔
      ¬ massActionCRN.np_isclose (x0.map Prod.snd).sum 1 := by
  unfold massActionCRN.init massActionCRN.get_reaction_list
  by_cases hclose : massActionCRN.np_isclose (x0.map Prod.snd).sum 1
  · simp only [if_pos hclose]
    constructor
    · intro h
      split at h
      · rename_i e heq
        simp only [Except.error.injEq] at h
        subst h
        split at heq
        · simp at heq
        · simp at heq
      · split at h
        · simp at h
        · split at h
          · simp at h
          · simp at h
    · intro h
      exact absurd hclose h
  · simp only [if_neg hclose]
    constructor
    · intro _
      exact hclose
    · intro _
      trivial

namespace massActionJSON

theorem get_reactions_ok (sp : List Str) (rs : List (Str × List ℚ))
    (parsed : List (Str × List (List Vec))) (h : get_reactions sp rs = .ok parsed) :
    List.Forall₂
      (fun (rp : Str × List ℚ) (pp : Str × List (List Vec)) =>
        rp.1 = pp.1 ∧ parse_reaction sp rp.1 = .ok pp.2)
      rs parsed := by
  induction rs generalizing parsed with
  | nil =>
    simp only [get_reactions] at h
    cases h
    exact List.Forall₂.nil
  | cons r rest ih =>
    simp only [get_reactions] at h
    split at h
    · cases h
    · rename_i terms hterms
      split at h
      · cases h
      · rename_i rest2 hrest2
        cases h
        exact List.Forall₂.cons ⟨rfl, hterms⟩ (ih rest2 hrest2)

theorem sepRev_no_space : ∀ c ∈ sepRev, c ≠ ' ' := by decide

theorem sepRev_ne_nil : sepRev ≠ [] := by decide

theorem central_split_two_le (r : Str) (hsep : sepRev <:+: r) :
    2 ≤ (pySplit sepRev (r.filter (fun c => c ≠ ' '))).length := by
  apply two_le_pySplit_of_infix _ _ sepRev_ne_nil
  exact infix_filter_of_all _ _ _ hsep (by decide)

theorem parse_reaction_terms_spec (sp : List Str) (r : Str) (ts : List (List Vec))
    (h : parse_reaction sp r = .ok ts) :
    ts.length = (if sepRev <:+: r then 2 else 1) ∧
      ∀ t ∈ ts, t ≠ [] ∧ ∀ v ∈ t, v.length = sp.length := by
  obtain ⟨sides, hsides, hcases⟩ := parse_reaction_ok_spec sp r ts h
  rcases hcases with ⟨hsep, rfl⟩ | ⟨hsep, rfl⟩
  · rw [if_pos hsep] at hsides ⊢
    obtain ⟨hslen, hsall⟩ := parse_sides_ok_spec _ _ _ _ hsides
    have h2 : 2 ≤ sides.length := by
      rw [hslen]; exact central_split_two_le r hsep
    have hs0 : sides.getD 0 [] ∈ sides := by
      rw [List.getD_eq_getElem _ _ (by omega)]
      exact List.getElem_mem _
    have hs1 : sides.getD 1 [] ∈ sides := by
      rw [List.getD_eq_getElem _ _ (by omega)]
      exact List.getElem_mem _
    refine ⟨rfl, ?_⟩
    intro t ht
    rcases List.mem_cons.mp ht with rfl | ht
    · exact ⟨by intro hc; rw [hc] at h2; simp at h2, fun v hv => hsall v hv⟩
    · simp only [List.mem_singleton] at ht
      subst ht
      refine ⟨by simp, ?_⟩
      intro v hv
      rcases List.mem_cons.mp hv with rfl | hv
      · simpa [negVec] using hsall _ hs1
      · simp only [List.mem_singleton] at hv
        subst hv
        simpa [negVec] using hsall _ hs0
  · rw [if_neg hsep] at hsides ⊢
    obtain ⟨hslen, hsall⟩ := parse_sides_ok_spec _ _ _ _ hsides
    refine ⟨rfl, ?_⟩
    intro t ht
    simp only [List.mem_singleton] at ht
    subst ht
    refine ⟨?_, fun v hv => hsall v hv⟩
    intro hc
    have := pySplit_ne_nil sepIrr (r.filter (fun c => c ≠ ' '))
    rw [hc] at hslen
    simp only [List.length_nil] at hslen
    exact this (List.length_eq_zero.mp hslen.symm)

theorem forall₂_exists_left {α β : Type} {R : α → β → Prop} {as : List α} {bs : List β}
    (h : List.Forall₂ R as bs) : ∀ b ∈ bs, ∃ a ∈ as, R a b := by
  induction h with
  | nil => simp
  | cons hr hrest ih =>
    intro b hb
    rcases List.mem_cons.mp hb with rfl | hb
    · exact ⟨_, List.mem_cons_self _ _, hr⟩
    · obtain ⟨a, ha, hra⟩ := ih b hb
      exact ⟨a, List.mem_cons_of_mem _ ha, hra⟩

theorem parse_ok_spec (spec : JsonSpec) (m : massActionCRN)
    (h : parse spec = .ok m) :
    m.name = spec.name ∧
      m.species_name = spec.species.map Prod.fst ∧
      m.x0 = spec.species ∧
      m.rates = get_rates spec.reactions ∧
      m.x0_np = spec.species.map Prod.snd ∧
      m.rates_np = (get_rates spec.reactions).map Prod.snd ∧
      ∃ parsed,
        get_reactions (spec.species.map Prod.fst) spec.reactions = .ok parsed ∧
          m.reactions = parsed ∧
          m.reaction_list = (parsed.map Prod.snd).flatten ∧
          m.reaction_list ≠ [] ∧
          m.reactants_matrix = m.reaction_list.map (fun t => t.headD []) ∧
          m.gamma = massActionCRN.get_gamma m.reaction_list ∧
          massActionCRN.np_isclose (spec.species.map Prod.snd).sum 1 ∧
          ∀ t ∈ m.reaction_list, t ≠ [] ∧ ∀ v ∈ t, v.length = m.species_name.length := by
  simp only [parse] at h
  split at h
  · cases h
  · rename_i parsed hparsed
    obtain ⟨h1, h2, h3, h4, h5, h6, h7, h8, h9, h10, h11, h12, h13⟩ :=
      massActionCRN.init_ok _ _ _ _ _ _ h
    refine ⟨h1, h2, h3, h4, h6, h7, parsed, hparsed, h5, h8, h9, h11, h12, h13, ?_⟩
    intro t ht
    rw [h8] at ht
    rcases List.mem_flatten.mp ht with ⟨terms, hterms, htmem⟩
    rcases List.mem_map.mp hterms with ⟨pp, hpp, rfl⟩
    have hfa := get_reactions_ok _ _ _ hparsed
    obtain ⟨rp, hrp, hkey, hok⟩ := forall₂_exists_left hfa pp hpp
    rw [hkey] at hok
    obtain ⟨-, hall⟩ := parse_reaction_terms_spec _ _ _ hok
    obtain ⟨htne, htlen⟩ := hall t htmem
    refine ⟨htne, ?_⟩
    rw [h2]
    exact htlen

end massActionJSON

/-! ### Shape of the stoichiometric matrix and index-wise sums -/

namespace massActionCRN

theorem foldl_vecAdd_length (n : Nat) (vs : List Vec) :
    ∀ v : Vec, v.length = n → (∀ w ∈ vs, w.length = n) →
      (vs.foldl massActionJSON.vecAdd v).length = n := by
  induction vs with
  | nil => intro v hv _; simpa using hv
  | cons w ws ih =>
    intro v hv hall
    simp only [List.foldl_cons]
    apply ih
    · simp only [massActionJSON.vecAdd, List.length_zipWith, hv,
        hall w (List.mem_cons_self _ _)]
      omega
    · intro u hu
      exact hall u (List.mem_cons_of_mem _ hu)

theorem sumSides_length (n : Nat) (t : List Vec) (ht : t ≠ [])
    (hall : ∀ v ∈ t, v.length = n) : (sumSides t).length = n := by
  match t with
  | [] => exact absurd rfl ht
  | v :: vs =>
    simp only [sumSides]
    exact foldl_vecAdd_length n vs v (hall v (List.mem_cons_self _ _))
      (fun w hw => hall w (List.mem_cons_of_mem _ hw))

theorem map_range_getD (v : List ℚ) (n : Nat) (h : v.length = n) :
    (List.range n).map (fun s => v.getD s 0) = v := by
  apply List.ext_getElem
  · simp [h]
  · intro i h1 h2
    simp only [List.getElem_map, List.getElem_range]
    rw [List.getD_eq_getElem _ _ (by omega)]

theorem transposeRows_getD_map (rows : List Vec) (j : Nat) (hj : j < rows.length)
    (hlen : (rows.getD j []).length = (rows.headD []).length) :
    (transposeRows rows).map (fun g => g.getD j 0) = rows.getD j [] := by
  unfold transposeRows
  rw [List.map_map]
  have he : ((fun g : Vec => g.getD j 0) ∘ fun s => rows.map (fun r => r.getD s 0)) =
      fun s => (rows.getD j []).getD s 0 := by
    funext s
    simp only [Function.comp_apply]
    rw [List.getD_eq_getElem (rows.map fun r => r.getD s 0) _ (by simpa using hj),
      List.getElem_map, List.getD_eq_getElem _ _ hj]
  rw [he]
  exact map_range_getD _ _ hlen

theorem get_gamma_shape (rl : List (List Vec)) (n : Nat) (hne : rl ≠ [])
    (hterm : ∀ t ∈ rl, t ≠ []) (hall : ∀ t ∈ rl, ∀ v ∈ t, v.length = n) :
    (get_gamma rl).length = n ∧ ∀ g ∈ get_gamma rl, g.length = rl.length := by
  have hrows : ∀ r ∈ rl.map sumSides, r.length = n := by
    intro r hr
    rcases List.mem_map.mp hr with ⟨t, ht, rfl⟩
    exact sumSides_length n t (hterm t ht) (hall t ht)
  have hhead : ((rl.map sumSides).headD []).length = n := by
    match hrl : rl with
    | [] => exact absurd rfl hne
    | t :: ts =>
      simp only [List.map_cons, List.headD_cons]
      exact hrows _ (by simp)
  constructor
  · unfold get_gamma transposeRows
    simp only [List.length_map, List.length_range]
    exact hhead
  · intro g hg
    unfold get_gamma transposeRows at hg
    rcases List.mem_map.mp hg with ⟨s, hs, rfl⟩
    simp

theorem get_gamma_column (rl : List (List Vec)) (n : Nat) (j : Nat) (hne : rl ≠ [])
    (hterm : ∀ t ∈ rl, t ≠ []) (hall : ∀ t ∈ rl, ∀ v ∈ t, v.length = n)
    (hj : j < rl.length) :
    (get_gamma rl).map (fun g => g.getD j 0) = sumSides (rl.getD j []) := by
  have hrows : ∀ r ∈ rl.map sumSides, r.length = n := by
    intro r hr
    rcases List.mem_map.mp hr with ⟨t, ht, rfl⟩
    exact sumSides_length n t (hterm t ht) (hall t ht)
  have hhead : ((rl.map sumSides).headD []).length = n := by
    match hrl : rl with
    | [] => exact absurd rfl hne
    | t :: ts =>
      simp only [List.map_cons, List.headD_cons]
      exact hrows _ (by simp)
  have hgd : (rl.map sumSides).getD j [] = sumSides (rl.getD j []) := by
    rw [List.getD_eq_getElem _ _ (by simpa using hj), List.getElem_map,
      List.getD_eq_getElem _ _ hj]
  unfold get_gamma
  rw [transposeRows_getD_map _ j (by simpa using hj)]
  · exact hgd
  · rw [hgd, hhead]
    apply sumSides_length n
    · exact hterm _ (by rw [List.getD_eq_getElem _ _ hj]; exact List.getElem_mem _)
    · exact hall _ (by rw [List.getD_eq_getElem _ _ hj]; exact List.getElem_mem _)

theorem sumSides_pair (r p : Vec) : sumSides [r, p] = massActionJSON.vecAdd r p := by
  simp [sumSides]

end massActionCRN

theorem list_sum_getD (l : List ℝ) :
    l.sum = ∑ i ∈ Finset.range l.length, l.getD i 0 := by
  induction l with
  | nil => simp
  | cons a l ih =>
    rw [List.sum_cons, ih, List.length_cons, Finset.sum_range_succ']
    simp [add_comm]

theorem list_prod_getD (l : List ℝ) :
    l.prod = ∏ i ∈ Finset.range l.length, l.getD i 1 := by
  induction l with
  | nil => simp
  | cons a l ih =>
    rw [List.prod_cons, ih, List.length_cons, Finset.prod_range_succ']
    simp [mul_comm]

theorem zipWith_getD {α β γ : Type} (f : α → β → γ) (a : List α) (b : List β) (j : Nat)
    (da : α) (db : β) (dc : γ) (hj : j < a.length) (hj2 : j < b.length) :
    (List.zipWith f a b).getD j dc = f (a.getD j da) (b.getD j db) := by
  rw [List.getD_eq_getElem _ _ (by rw [List.length_zipWith]; omega)]
  rw [List.getElem_zipWith]
  rw [List.getD_eq_getElem _ _ hj, List.getD_eq_getElem _ _ hj2]


theorem parse_exampleSpec : massActionJSON.parse exampleSpec = .ok exampleCRN := by
  have hin : sepRev <:+: ['2', 'X', ' ', '+', ' ', '3', 'Y', ' ', '<', '-', '>', ' ', 'Z'] := by
    decide
  simp [massActionJSON.parse, exampleSpec, exampleCRN, massActionJSON.get_reactions,
    massActionJSON.parse_reaction, massActionJSON.parse_sides, massActionJSON.parse_side,
    massActionJSON.parse_side_aux, massActionJSON.get_specie_and_stoc,
    massActionJSON.get_rates, massActionJSON.odInsert, massActionJSON.rate_name,
    massActionJSON.negVec, massActionJSON.vecAdd, hin,
    pyFloat?, pyStrip, digitGroup?, decodeDigits, pySplit, pySplitAux, firstAlphaIdx,
    massActionCRN.init, massActionCRN.get_reaction_list, massActionCRN.get_gamma,
    massActionCRN.transposeRows, massActionCRN.sumSides, massActionCRN.np_isclose,
    Nat.repr, Nat.toDigits, Nat.toDigitsCore, Nat.digitChar, List.asString, List.enum,
    List.indexOf, List.findIdx, List.findIdx.go, List.range_succ]
  norm_num

/-! ### Claims -/

/-- C10: the derivative function is deterministic and time-independent: its
value does not depend on the time argument, and — the embedding being a pure
function of the immutable model fields — repeated invocations with equal
states return equal results without mutating any model state. -/
theorem C10_dynamic_autonomous (m : massActionCRN) (x : List ℝ) (t1 t2 : ℝ) :
    massActionCRN.mass_action_dynamic m x t1 = massActionCRN.mass_action_dynamic m x t2 := rfl

/-- C4: a reaction string containing `<->` that parses successfully yields
exactly two directional terms, the directly parsed (forward) one first, and
the second is the mirror `(-product_vector, -reactant_vector)` of the first;
a reaction string without `<->` yields exactly one term. -/
theorem C4_round_trip (sp : List Str) (r : Str) (ts : List (List Vec)) :
    (sepRev <:+: r → massActionJSON.parse_reaction sp r = .ok ts →
      ts.length = 2 ∧
        ∃ v0 v1 rest, ts.getD 0 [] = v0 :: v1 :: rest ∧
          ts.getD 1 [] = [massActionJSON.negVec v1, massActionJSON.negVec v0]) ∧
    (¬ sepRev <:+: r → massActionJSON.parse_reaction sp r = .ok ts → ts.length = 1) := by
  constructor
  · intro hsep h
    obtain ⟨sides, hsides, hcases⟩ := massActionJSON.parse_reaction_ok_spec sp r ts h
    rcases hcases with ⟨-, rfl⟩ | ⟨hns, -⟩
    · obtain ⟨hslen, -⟩ := massActionJSON.parse_sides_ok_spec _ _ _ _ hsides
      have h2 : 2 ≤ sides.length := by
        rw [hslen]
        rw [if_pos hsep]
        exact massActionJSON.central_split_two_le r hsep
      match hsd : sides with
      | v0 :: v1 :: rest =>
        refine ⟨rfl, v0, v1, rest, rfl, rfl⟩
      | [] => simp at h2
      | [v0] => simp at h2
    · exact absurd hsep hns
  · intro hsep h
    obtain ⟨sides, hsides, hcases⟩ := massActionJSON.parse_reaction_ok_spec sp r ts h
    rcases hcases with ⟨hs, -⟩ | ⟨-, rfl⟩
    · exact absurd hs hsep
    · rfl

/-- Witness for C4 at the reversible reaction `X <-> Y` and the
irreversible reaction `X -> Y` over species X, Y. -/
theorem C4_round_trip_witness :
    (sepRev <:+: ("X <-> Y".toList) ∧
      massActionJSON.parse_reaction [['X'], ['Y']] ("X <-> Y".toList) =
        .ok [[[-1, 0], [0, 1]], [[0, -1], [1, 0]]] ∧
      ([[[-1, 0], [0, 1]], [[0, -1], [1, 0]]] : List (List Vec)).length = 2 ∧
        ∃ v0 v1 rest,
          ([[[-1, 0], [0, 1]], [[0, -1], [1, 0]]] : List (List Vec)).getD 0 [] =
            v0 :: v1 :: rest ∧
          ([[[-1, 0], [0, 1]], [[0, -1], [1, 0]]] : List (List Vec)).getD 1 [] =
            [massActionJSON.negVec v1, massActionJSON.negVec v0]) ∧
    (¬ sepRev <:+: ("X -> Y".toList) ∧
      massActionJSON.parse_reaction [['X'], ['Y']] ("X -> Y".toList) =
        .ok [[[-1, 0], [0, 1]]] ∧
      ([[[-1, 0], [0, 1]]] : List (List Vec)).length = 1) := by
  have h1 : sepRev <:+: ("X <-> Y".toList) := by decide
  have h2 : massActionJSON.parse_reaction [['X'], ['Y']] ("X <-> Y".toList) =
      .ok [[[-1, 0], [0, 1]], [[0, -1], [1, 0]]] := by decide
  have h3 : ¬ sepRev <:+: ("X -> Y".toList) := by decide
  have h4 : massActionJSON.parse_reaction [['X'], ['Y']] ("X -> Y".toList) =
      .ok [[[-1, 0], [0, 1]]] := by decide
  exact ⟨⟨h1, h2, (C4_round_trip [['X'], ['Y']] _ _).1 h1 h2⟩,
    ⟨h3, h4, (C4_round_trip [['X'], ['Y']] _ _).2 h3 h4⟩⟩

/-- C9: within one reaction side the per-token assignment overwrites rather
than accumulates: the final entry at a species' index is the (sign-adjusted)
coefficient of the last token mentioning that species. -/
theorem C9_duplicate_overwrite (sp : List Str) (i_side : Nat) (side : Str) (v : Vec)
    (L : List (Str × ℚ)) (name : Str) (p : Str × ℚ)
    (hok : massActionJSON.parse_side sp i_side side = .ok v)
    (hL : massActionJSON.parse_tokens sp (pySplit ['+'] side) = .ok L)
    (hlast : (L.filter (fun q => q.1 = name)).getLast? = some p) :
    v.getD (sp.indexOf name) 0 = (if i_side = 0 then -p.2 else p.2) := by
  unfold massActionJSON.parse_side at hok
  split at hok
  · rename_i hemp
    have hside : side = [] := List.isEmpty_iff.mp hemp
    subst hside
    simp [pySplit, pySplitAux, massActionJSON.parse_tokens,
      massActionJSON.get_specie_and_stoc, firstAlphaIdx] at hL
  · exact (massActionJSON.parse_side_aux_last sp i_side (pySplit ['+'] side)
      (List.replicate sp.length 0) v L (by simp) hok hL name).2 p hlast

/-- Witness for C9: parsing the reactant side `X + X` over species X, Y
assigns the last token's coefficient, giving entry -1 (not -2). -/
theorem C9_duplicate_overwrite_witness :
    massActionJSON.parse_side [['X'], ['Y']] 0 ("X+X".toList) = .ok [-1, 0] ∧
      ([-1, 0] : Vec).getD (List.indexOf ['X'] [['X'], ['Y']]) 0 = -1 := by
  have hok : massActionJSON.parse_side [['X'], ['Y']] 0 ("X+X".toList) = .ok [-1, 0] := by
    decide
  have hL : massActionJSON.parse_tokens [['X'], ['Y']] (pySplit ['+'] ("X+X".toList)) =
      .ok [(['X'], 1), (['X'], 1)] := by decide
  have hlast : (([(['X'], 1), (['X'], 1)] : List (Str × ℚ)).filter
      (fun q => q.1 = ['X'])).getLast? = some (['X'], 1) := by decide
  have := C9_duplicate_overwrite [['X'], ['Y']] 0 ("X+X".toList) [-1, 0] _ ['X'] _ hok hL hlast
  simp only [if_pos rfl] at this
  exact ⟨hok, this⟩

/-- C8 counterexample: the reaction string `X->Y->Z` splits into three
segments, yet the parser silently succeeds (no error is raised), producing
one term with three side vectors. -/
theorem C8_counterexample :
    massActionJSON.parse_reaction [['X'], ['Y'], ['Z']] ("X->Y->Z".toList) =
      .ok [[[-1, 0, 0], [0, 1, 0], [0, 0, 1]]] := by decide

/-- C8 amended: the reaction parser performs no validation of the number of
split points: it succeeds exactly when every token of every non-empty
segment of the central split parses, and on success the first term has one
side vector per split segment (which can exceed two). -/
theorem C8_split_not_validated (sp : List Str) (r : Str) :
    ((∃ ts, massActionJSON.parse_reaction sp r = .ok ts) ↔
      ∀ side ∈ pySplit (if sepRev <:+: r then sepRev else sepIrr)
          (r.filter (fun c => c ≠ ' ')),
        (side.isEmpty ∨ ∀ tok ∈ pySplit ['+'] side,
          ∃ p, massActionJSON.get_specie_and_stoc sp tok = .ok p)) ∧
    ∀ ts, massActionJSON.parse_reaction sp r = .ok ts →
      (ts.getD 0 []).length =
        (pySplit (if sepRev <:+: r then sepRev else sepIrr)
          (r.filter (fun c => c ≠ ' '))).length := by
  constructor
  · exact massActionJSON.parse_reaction_ok_iff sp r
  · intro ts h
    obtain ⟨sides, hsides, hcases⟩ := massActionJSON.parse_reaction_ok_spec sp r ts h
    obtain ⟨hslen, -⟩ := massActionJSON.parse_sides_ok_spec _ _ _ _ hsides
    rcases hcases with ⟨hsep, rfl⟩ | ⟨hsep, rfl⟩
    · simpa [if_pos hsep] using hslen
    · simpa [if_neg hsep] using hslen

/-- Witness for C8 amended, at the double-split string `X->Y->Z`: the first
term has one side vector per split segment, three in total. -/
theorem C8_split_not_validated_witness :
    massActionJSON.parse_reaction [['X'], ['Y'], ['Z']] ("X->Y->Z".toList) =
      .ok [[[-1, 0, 0], [0, 1, 0], [0, 0, 1]]] ∧
    (([[[-1, 0, 0], [0, 1, 0], [0, 0, 1]]] : List (List Vec)).getD 0 []).length =
      (pySplit (if sepRev <:+: ("X->Y->Z".toList) then sepRev else sepIrr)
        (("X->Y->Z".toList).filter (fun c => c ≠ ' '))).length := by
  have h : massActionJSON.parse_reaction [['X'], ['Y'], ['Z']] ("X->Y->Z".toList) =
      .ok [[[-1, 0, 0], [0, 1, 0], [0, 0, 1]]] := by decide
  exact ⟨h, (C8_split_not_validated [['X'], ['Y'], ['Z']] ("X->Y->Z".toList)).2 _ h⟩

theorem headD_eq_getD_zero {α : Type} (l : List α) (d : α) : l.headD d = l.getD 0 d := by
  cases l <;> rfl

theorem headD_mem {α : Type} (l : List α) (d : α) (h : l ≠ []) : l.headD d ∈ l := by
  cases l with
  | nil => exact absurd rfl h
  | cons a as => exact List.mem_cons_self _ _

/-- C5 counterexample: in the concrete scenario the stored reactants matrix
row 0 is the raw reactant vector `[-2, -3, 0]` of the first directional
term, not its absolute value `[2, 3, 0]`. -/
theorem C5_counterexample :
    massActionJSON.parse exampleSpec = .ok exampleCRN ∧
      (exampleCRN.reaction_list.getD 0 []).getD 0 [] = [-2, -3, 0] ∧
      exampleCRN.reactants_matrix.getD 0 [] = [-2, -3, 0] ∧
      ([-2, -3, 0] : Vec).map (fun q => |q|) = [2, 3, 0] ∧
      exampleCRN.reactants_matrix.getD 0 [] ≠ [2, 3, 0] := by
  refine ⟨parse_exampleSpec, by decide, by decide, by norm_num, by decide⟩

/-- C5 amended: the reactants matrix has one row per directional term and
one column per species, and row `j` is the reactant vector (the first side
vector) of term `j` as stored — without taking absolute values; the absolute
value is only applied to it inside the derivative function. -/
theorem C5_reactants_matrix (spec : JsonSpec) (m : massActionCRN)
    (h : massActionJSON.parse spec = .ok m) :
    m.reactants_matrix.length = m.reaction_list.length ∧
      (∀ row ∈ m.reactants_matrix, row.length = m.species_name.length) ∧
      ∀ j, j < m.reaction_list.length →
        m.reactants_matrix.getD j [] = (m.reaction_list.getD j []).getD 0 [] := by
  obtain ⟨-, -, -, -, -, -, parsed, -, -, -, -, hmat, -, -, hterms⟩ :=
    massActionJSON.parse_ok_spec spec m h
  refine ⟨by rw [hmat]; simp, ?_, ?_⟩
  · intro row hrow
    rw [hmat] at hrow
    rcases List.mem_map.mp hrow with ⟨t, ht, rfl⟩
    obtain ⟨htne, hlen⟩ := hterms t ht
    exact hlen _ (headD_mem t [] htne)
  · intro j hj
    rw [hmat]
    rw [List.getD_eq_getElem _ _ (by simpa using hj), List.getElem_map,
      List.getD_eq_getElem _ _ hj, headD_eq_getD_zero]

/-- Witness for C5 amended at the concrete scenario. -/
theorem C5_reactants_matrix_witness :
    massActionJSON.parse exampleSpec = .ok exampleCRN ∧
      exampleCRN.reactants_matrix.length = exampleCRN.reaction_list.length ∧
      (∀ row ∈ exampleCRN.reactants_matrix, row.length = exampleCRN.species_name.length) ∧
      ∀ j, j < exampleCRN.reaction_list.length →
        exampleCRN.reactants_matrix.getD j [] =
          (exampleCRN.reaction_list.getD j []).getD 0 [] :=
  ⟨parse_exampleSpec, C5_reactants_matrix exampleSpec exampleCRN parse_exampleSpec⟩

/-- C6 counterexample: initial concentrations summing to 0.99999 are *not*
within absolute tolerance 1e-8 of 1, yet construction succeeds, because
`np.isclose` also grants the relative tolerance 1e-5. -/
theorem C6_counterexample :
    massActionCRN.init ("c".toList) [['A'], ['B']]
        [(['A'], 49999/100000), (['B'], 1/2)] [(['k', '1'], 1)]
        [(("A->B").toList, [[[-1, 0], [0, 1]]])] =
      .ok { name := ("c".toList), species_name := [['A'], ['B']],
            x0 := [(['A'], 49999/100000), (['B'], 1/2)], rates := [(['k', '1'], 1)],
            reactions := [(("A->B").toList, [[[-1, 0], [0, 1]]])],
            x0_np := [49999/100000, 1/2], rates_np := [1],
            reaction_list := [[[-1, 0], [0, 1]]],
            reactants_matrix := [[-1, 0]], gamma := [[-1], [1]] } ∧
      ¬ (|((49999 : ℚ)/100000 + 1/2) - 1| ≤ 1/100000000) := by
  constructor
  · simp [massActionCRN.init, massActionCRN.get_reaction_list, massActionCRN.get_gamma,
      massActionCRN.transposeRows, massActionCRN.sumSides, massActionCRN.np_isclose,
      massActionJSON.vecAdd, List.range_succ]
    norm_num
    rw [abs_of_pos (by norm_num : (0 : ℚ) < 1 / 100000)]
    norm_num
  · norm_num
    rw [abs_of_pos (by norm_num : (0 : ℚ) < 1 / 100000)]
    norm_num

/-- C6 amended: construction fails with `InvalidInitialStateError` exactly
when the initial concentrations fail numpy's default closeness test against
1.0, i.e. when `|sum - 1|` exceeds `1e-8 + 1e-5 * |1.0|` (absolute tolerance
1e-8 *plus* relative tolerance 1e-5) — not the 1e-8 absolute tolerance
alone; no partial model is returned on failure.  In particular a sum of
0.999999995 succeeds and a sum of 0.9 fails. -/
theorem C6_initial_state_validation :
    (∀ (name : Str) (sp : List Str) (x0 rates : List (Str × ℚ))
        (reactions : List (Str × List (List Vec))),
      massActionCRN.init name sp x0 rates reactions = .error .invalidInitialState ↔
        ¬ |(x0.map Prod.snd).sum - 1| ≤ 1 / 100000000 + 1 / 100000 * |(1 : ℚ)|) ∧
    massActionCRN.init ("c".toList) [['A']] [(['A'], 999999995/1000000000)] [(['k', '1'], 1)]
        [(("A->A").toList, [[[-1], [1]]])] =
      .ok { name := ("c".toList), species_name := [['A']],
            x0 := [(['A'], 999999995/1000000000)], rates := [(['k', '1'], 1)],
            reactions := [(("A->A").toList, [[[-1], [1]]])],
            x0_np := [999999995/1000000000], rates_np := [1],
            reaction_list := [[[-1], [1]]],
            reactants_matrix := [[-1]], gamma := [[0]] } ∧
    massActionCRN.init ("c".toList) [['A']] [(['A'], 9/10)] [(['k', '1'], 1)]
        [(("A->A").toList, [[[-1], [1]]])] = .error .invalidInitialState := by
  refine ⟨fun name sp x0 rates reactions => massActionCRN.init_invalid_iff _ _ _ _ _, ?_, ?_⟩
  · simp [massActionCRN.init, massActionCRN.get_reaction_list, massActionCRN.get_gamma,
      massActionCRN.transposeRows, massActionCRN.sumSides, massActionCRN.np_isclose,
      massActionJSON.vecAdd, List.range_succ]
    norm_num
    rw [abs_of_pos (by norm_num : (0 : ℚ) < 1 / 200000000)]
    norm_num
  · rw [massActionCRN.init_invalid_iff]
    simp only [massActionCRN.np_isclose, List.map_cons, List.map_nil, List.sum_cons,
      List.sum_nil]
    norm_num
    rw [abs_of_pos (by norm_num : (0 : ℚ) < 1 / 10)]
    norm_num

/-- C7 counterexample: the token `..X` over declared species X contains an
alphabetic character and resolves to a declared species, yet the parser does
not return a (name, coefficient) pair: the coefficient prefix `..` makes
`float(...)` raise `ValueError`. -/
theorem C7_counterexample :
    firstAlphaIdx ("..X".toList) = some 2 ∧
      ("..X".toList).drop 2 ∈ [("X".toList)] ∧
      massActionJSON.get_specie_and_stoc [("X".toList)] ("..X".toList) =
        .error .valueError := by
  refine ⟨by decide, by decide, by decide⟩

/-- C7 amended: for every token, if it has no alphabetic character, or the
substring from its first alphabetic character to the end is not a declared
species, the term parser fails with `ParseError`; otherwise, when the prefix
before that character is empty it returns (name, 1.0); when the prefix is
non-empty it returns (name, value) if the prefix parses as a Python float
and fails with `ValueError` (from `float(...)`) if it does not. -/
theorem C7_term_parse_behaviour (sp : List Str) (tok : Str) :
    ((∀ c ∈ tok, ¬ c.isAlpha = true) →
      massActionJSON.get_specie_and_stoc sp tok = .error .parseError) ∧
    ∀ i, i < tok.length → (tok.getD i ' ').isAlpha = true →
      (∀ j, j < i → (tok.getD j ' ').isAlpha = false) →
      ((tok.drop i ∉ sp →
          massActionJSON.get_specie_and_stoc sp tok = .error .parseError) ∧
        (tok.drop i ∈ sp → i = 0 →
          massActionJSON.get_specie_and_stoc sp tok = .ok (tok.drop i, 1)) ∧
        (tok.drop i ∈ sp → 0 < i → ∀ q, pyFloat? (tok.take i) = some q →
          massActionJSON.get_specie_and_stoc sp tok = .ok (tok.drop i, q)) ∧
        (tok.drop i ∈ sp → 0 < i → pyFloat? (tok.take i) = none →
          massActionJSON.get_specie_and_stoc sp tok = .error .valueError)) := by
  constructor
  · intro hall
    have hnone : firstAlphaIdx tok = none := (firstAlphaIdx_eq_none_iff tok).mpr hall
    unfold massActionJSON.get_specie_and_stoc
    rw [hnone]
  · intro i hi ha hmin
    have hsome : firstAlphaIdx tok = some i := firstAlphaIdx_eq_some_of tok i hi ha hmin
    have htake : (tok.take i).isEmpty = (i = 0 : Bool) := by
      cases i with
      | zero => simp
      | succ i2 =>
        have : tok.take (i2 + 1) ≠ [] := by
          intro hc
          have := congrArg List.length hc
          simp only [List.length_take, List.length_nil] at this
          omega
        simp only [decide_eq_false (by omega : ¬ (i2 + 1 = 0))]
        exact List.isEmpty_eq_false.mpr this
    refine ⟨?_, ?_, ?_, ?_⟩
    · intro hnm
      unfold massActionJSON.get_specie_and_stoc
      rw [hsome]
      simp only [if_neg hnm]
    · intro hmem hi0
      subst hi0
      unfold massActionJSON.get_specie_and_stoc
      rw [hsome]
      simp only [if_pos hmem]
      simp
    · intro hmem hipos q hq
      unfold massActionJSON.get_specie_and_stoc
      rw [hsome]
      simp only [if_pos hmem]
      rw [htake]
      simp only [decide_eq_false (by omega : ¬ (i = 0)), Bool.false_eq_true, if_false]
      rw [hq]
    · intro hmem hipos hq
      unfold massActionJSON.get_specie_and_stoc
      rw [hsome]
      simp only [if_pos hmem]
      rw [htake]
      simp only [decide_eq_false (by omega : ¬ (i = 0)), Bool.false_eq_true, if_false]
      rw [hq]

/-- Witness for C7 amended: `X` parses to (X, 1.0) by coefficient
defaulting, and `2.5Y` parses to (Y, 2.5). -/
theorem C7_term_parse_behaviour_witness :
    massActionJSON.get_specie_and_stoc [("X".toList)] ("X".toList) = .ok (("X".toList), 1) ∧
      massActionJSON.get_specie_and_stoc [("Y".toList)] ("2.5Y".toList) =
        .ok (("Y".toList), 5/2) := by
  have hfloat : pyFloat? (("2.5Y".toList).take 3) = some (5/2) := by
    simp [pyFloat?, pyStrip, digitGroup?, decodeDigits, pySplit, pySplitAux]
    norm_num
  constructor
  · have h := ((C7_term_parse_behaviour [("X".toList)] ("X".toList)).2 0 (by decide) (by decide)
      (fun j hj => absurd hj (by omega))).2.1 (by decide) rfl
    simpa using h
  · have h := ((C7_term_parse_behaviour [("Y".toList)] ("2.5Y".toList)).2 3 (by decide) (by decide)
      (by decide)).2.2.1 (by decide) (by omega) (5/2) hfloat
    simpa using h

/-- C3: for every successfully parsed model, gamma has one row per species
and one column per directional term, and whenever term `j` is a proper
(reactant, product) pair of side vectors, column `j` of gamma is their
pointwise sum.  In the concrete scenario (species X 0.5, Y 0.25, Z 0.25 and
reaction `2X + 3Y <-> Z` with rates 0.0001 and 0.000008) the two columns
are `[-2, -3, 1]` and `[2, 3, -1]` and the rate vector is
`[0.0001, 0.000008]` in that order. -/
theorem C3_gamma :
    (∀ (spec : JsonSpec) (m : massActionCRN), massActionJSON.parse spec = .ok m →
      m.gamma.length = m.species_name.length ∧
        (∀ g ∈ m.gamma, g.length = m.reaction_list.length) ∧
        ∀ j r p, m.reaction_list.getD j [] = [r, p] →
          m.gamma.map (fun g => g.getD j 0) = massActionJSON.vecAdd r p) ∧
    (massActionJSON.parse exampleSpec = .ok exampleCRN ∧
      exampleCRN.gamma.map (fun g => g.getD 0 0) = [-2, -3, 1] ∧
      exampleCRN.gamma.map (fun g => g.getD 1 0) = [2, 3, -1] ∧
      exampleCRN.rates_np = [1/10000, 1/125000]) := by
  constructor
  · intro spec m h
    obtain ⟨-, -, -, -, -, -, parsed, -, -, -, hne, -, hgam, -, hterms⟩ :=
      massActionJSON.parse_ok_spec spec m h
    have hterm : ∀ t ∈ m.reaction_list, t ≠ [] := fun t ht => (hterms t ht).1
    have hall : ∀ t ∈ m.reaction_list, ∀ v ∈ t, v.length = m.species_name.length :=
      fun t ht => (hterms t ht).2
    obtain ⟨hlen, hrow⟩ :=
      massActionCRN.get_gamma_shape m.reaction_list m.species_name.length hne hterm hall
    refine ⟨by rw [hgam]; exact hlen, by rw [hgam]; exact hrow, ?_⟩
    intro j r p hjrp
    have hj : j < m.reaction_list.length := by
      by_contra hc
      rw [List.getD_eq_default _ _ (by omega)] at hjrp
      cases hjrp
    rw [hgam, massActionCRN.get_gamma_column m.reaction_list m.species_name.length j hne
      hterm hall hj, hjrp, massActionCRN.sumSides_pair]
  · exact ⟨parse_exampleSpec, by decide, by decide, rfl⟩

/-- Witness for C3 at the concrete scenario: column 0 of gamma is the sum of
the reactant and product vectors of the forward term. -/
theorem C3_gamma_witness :
    massActionJSON.parse exampleSpec = .ok exampleCRN ∧
      exampleCRN.reaction_list.getD 0 [] = [[-2, -3, 0], [0, 0, 1]] ∧
      exampleCRN.gamma.map (fun g => g.getD 0 0) =
        massActionJSON.vecAdd [-2, -3, 0] [0, 0, 1] :=
  ⟨parse_exampleSpec, by decide,
    (C3_gamma.1 exampleSpec exampleCRN parse_exampleSpec).2.2 0 _ _ (by decide)⟩

/-! ### Alignment of the flattened term list with the rate dictionary -/

theorem flatten_zip_align {α β : Type} {As : List (List α)} {Bs : List (List β)}
    (h : List.Forall₂ (fun (a : List α) (b : List β) => a.length = b.length) As Bs) :
    ((As.zip Bs).map (fun ab => ab.1.zip ab.2)).flatten.map Prod.fst = As.flatten ∧
      ((As.zip Bs).map (fun ab => ab.1.zip ab.2)).flatten.map Prod.snd = Bs.flatten := by
  induction h with
  | nil => simp
  | cons hab hrest ih =>
    rename_i a b as bs
    simp only [List.zip_cons_cons, List.map_cons, List.flatten_cons, List.map_append]
    constructor
    · rw [ih.1, List.map_fst_zip a b (le_of_eq hab)]
    · rw [ih.2, List.map_snd_zip a b (le_of_eq hab.symm)]

theorem forall₂_flatten_length {α β : Type} {As : List (List α)} {Bs : List (List β)}
    (h : List.Forall₂ (fun (a : List α) (b : List β) => a.length = b.length) As Bs) :
    As.flatten.length = Bs.flatten.length := by
  induction h with
  | nil => rfl
  | cons hab hrest ih =>
    simp only [List.flatten_cons, List.length_append, hab, ih]

theorem massActionJSON.terms_rates_len_align (sp : List Str) (rs : List (Str × List ℚ))
    (parsed : List (Str × List (List Vec)))
    (hfmt : ∀ p ∈ rs, p.2.length = if sepRev <:+: p.1 then 2 else 1)
    (hok : massActionJSON.get_reactions sp rs = .ok parsed) :
    List.Forall₂ (fun (a : List (List Vec)) (b : List ℚ) => a.length = b.length)
      (parsed.map Prod.snd) (rs.map Prod.snd) := by
  induction rs generalizing parsed with
  | nil =>
    simp only [massActionJSON.get_reactions] at hok
    cases hok
    simp
  | cons r rest ih =>
    simp only [massActionJSON.get_reactions] at hok
    split at hok
    · cases hok
    · rename_i terms hterms
      split at hok
      · cases hok
      · rename_i parsed2 hparsed2
        cases hok
        simp only [List.map_cons]
        refine List.Forall₂.cons ?_ (ih parsed2 (fun p hp => hfmt p (List.mem_cons_of_mem _ hp)) hparsed2)
        obtain ⟨hlen, -⟩ := massActionJSON.parse_reaction_terms_spec sp r.1 terms hterms
        rw [hlen]
        exact (hfmt r (List.mem_cons_self _ _)).symm

/-- C1: under the input-format assumption (one declared rate for an
irreversible reaction, two for a reversible one), the flattened directional
term list has the same length as the rate dictionary, the rate dictionary's
values in iteration order are exactly the declared rates in declaration
order (forward before reverse), and zipping each reaction's terms with its
declared rates yields an association whose term sequence is the flattened
term list and whose rate sequence is the rate dictionary's value sequence:
term j's rate is rate j. -/
theorem C1_rate_ordering (spec : JsonSpec) (parsed : List (Str × List (List Vec)))
    (hfmt : ∀ p ∈ spec.reactions, p.2.length = if sepRev <:+: p.1 then 2 else 1)
    (hok : massActionJSON.get_reactions (spec.species.map Prod.fst) spec.reactions =
      .ok parsed) :
    (parsed.map Prod.snd).flatten.length =
        (massActionJSON.get_rates spec.reactions).length ∧
      (massActionJSON.get_rates spec.reactions).map Prod.snd =
        (spec.reactions.map Prod.snd).flatten ∧
      (((parsed.map Prod.snd).zip (spec.reactions.map Prod.snd)).map
          (fun ab => ab.1.zip ab.2)).flatten.map Prod.fst =
        (parsed.map Prod.snd).flatten ∧
      (((parsed.map Prod.snd).zip (spec.reactions.map Prod.snd)).map
          (fun ab => ab.1.zip ab.2)).flatten.map Prod.snd =
        (massActionJSON.get_rates spec.reactions).map Prod.snd := by
  have hal := massActionJSON.terms_rates_len_align _ _ _ hfmt hok
  have hzip := flatten_zip_align hal
  have hle : ∀ p ∈ spec.reactions, p.2.length ≤ 2 := by
    intro p hp
    rw [hfmt p hp]
    split <;> omega
  have hval : (massActionJSON.get_rates spec.reactions).map Prod.snd =
      (spec.reactions.map Prod.snd).flatten := by
    rw [massActionJSON.get_rates_eq_named _ hle, massActionJSON.named_rates_from_snd]
  refine ⟨?_, hval, hzip.1, by rw [hzip.2, hval]⟩
  have hflat := forall₂_flatten_length hal
  have : (massActionJSON.get_rates spec.reactions).length =
      ((spec.reactions.map Prod.snd)).flatten.length := by
    rw [← hval, List.length_map]
  rw [this, hflat]

/-- Witness for C1 at a two-reaction specification, one reversible and one
irreversible. -/
theorem C1_rate_ordering_witness :
    (∀ p ∈ [(("2X + 3Y <-> Z").toList, [(1 : ℚ)/10000, 1/125000]),
        (("2X -> Y + Z").toList, [(3 : ℚ)/1000])],
      (p.2.length = if sepRev <:+: p.1 then 2 else 1)) ∧
      massActionJSON.get_reactions [("X".toList), ("Y".toList), ("Z".toList)]
          [(("2X + 3Y <-> Z").toList, [(1 : ℚ)/10000, 1/125000]),
            (("2X -> Y + Z").toList, [(3 : ℚ)/1000])] =
        .ok [(("2X + 3Y <-> Z").toList,
              [[[-2, -3, 0], [0, 0, 1]], [[0, 0, -1], [2, 3, 0]]]),
             (("2X -> Y + Z").toList, [[[-2, 0, 0], [0, 1, 1]]])] ∧
      (([[[[-2, -3, 0], [0, 0, 1]], [[0, 0, -1], [2, 3, 0]]],
        [[[-2, 0, 0], [0, 1, 1]]]] : List (List (List Vec))).flatten.length =
        (massActionJSON.get_rates
          [(("2X + 3Y <-> Z").toList, [(1 : ℚ)/10000, 1/125000]),
            (("2X -> Y + Z").toList, [(3 : ℚ)/1000])]).length) := by
  have hfmt : ∀ p ∈ [(("2X + 3Y <-> Z").toList, [(1 : ℚ)/10000, 1/125000]),
      (("2X -> Y + Z").toList, [(3 : ℚ)/1000])],
      (p.2.length = if sepRev <:+: p.1 then 2 else 1) := by decide
  have hok : massActionJSON.get_reactions [("X".toList), ("Y".toList), ("Z".toList)]
      [(("2X + 3Y <-> Z").toList, [(1 : ℚ)/10000, 1/125000]),
        (("2X -> Y + Z").toList, [(3 : ℚ)/1000])] =
      .ok [(("2X + 3Y <-> Z").toList,
            [[[-2, -3, 0], [0, 0, 1]], [[0, 0, -1], [2, 3, 0]]]),
           (("2X -> Y + Z").toList, [[[-2, 0, 0], [0, 1, 1]]])] := by
    have hin : sepRev <:+: ['2', 'X', ' ', '+', ' ', '3', 'Y', ' ', '<', '-', '>', ' ', 'Z'] := by
      decide
    have hnin : ¬ sepRev <:+: ['2', 'X', ' ', '-', '>', ' ', 'Y', ' ', '+', ' ', 'Z'] := by
      decide
    simp [massActionJSON.get_reactions, massActionJSON.parse_reaction,
      massActionJSON.parse_sides, massActionJSON.parse_side,
      massActionJSON.parse_side_aux, massActionJSON.get_specie_and_stoc,
      massActionJSON.negVec, hin, hnin,
      pyFloat?, pyStrip, digitGroup?, decodeDigits, pySplit, pySplitAux, firstAlphaIdx,
      List.indexOf, List.findIdx, List.findIdx.go]
  have h := C1_rate_ordering
    ⟨("w").toList, [(("X").toList, 1), (("Y").toList, 0), (("Z").toList, 0)],
      [(("2X + 3Y <-> Z").toList, [(1 : ℚ)/10000, 1/125000]),
        (("2X -> Y + Z").toList, [(3 : ℚ)/1000])]⟩
    [(("2X + 3Y <-> Z").toList, [[[-2, -3, 0], [0, 0, 1]], [[0, 0, -1], [2, 3, 0]]]),
     (("2X -> Y + Z").toList, [[[-2, 0, 0], [0, 1, 1]]])] hfmt hok
  exact ⟨hfmt, hok, by simpa using h.1⟩

theorem getD_map {α β : Type} (f : α → β) (l : List α) (i : Nat) (d : α) (d2 : β)
    (hi : i < l.length) : (l.map f).getD i d2 = f (l.getD i d) := by
  rw [List.getD_eq_getElem _ _ (by simpa using hi), List.getElem_map,
    List.getD_eq_getElem _ _ hi]

/-- C2: for a successfully parsed model whose specification declares one
rate per irreversible and two per reversible reaction, the derivative
function at any state vector of the right length and any time returns
`gamma · v` with `v j = k j * prod over species s of x s ^ |R j s|`, `R`
the stored reactants matrix, `k` the rate vector (ordered like the terms)
and `gamma` the stoichiometric matrix. -/
theorem C2_derivative (spec : JsonSpec) (m : massActionCRN)
    (hfmt : ∀ p ∈ spec.reactions, p.2.length = if sepRev <:+: p.1 then 2 else 1)
    (h : massActionJSON.parse spec = .ok m)
    (x : List ℝ) (t : ℝ) (hx : x.length = m.species_name.length) :
    (massActionCRN.mass_action_dynamic m x t).length = m.species_name.length ∧
      ∀ s, s < m.species_name.length →
        (massActionCRN.mass_action_dynamic m x t).getD s 0 =
          ∑ j ∈ Finset.range m.reaction_list.length,
            (((m.gamma.getD s []).getD j 0 : ℚ) : ℝ) *
              (((m.rates_np.getD j 0 : ℚ) : ℝ) *
                ∏ s2 ∈ Finset.range m.species_name.length,
                  (x.getD s2 1) ^ ((|(m.reactants_matrix.getD j []).getD s2 0| : ℚ) : ℝ)) := by
  obtain ⟨-, -, -, -, -, hrnp, parsed, hok, -, hrl, hne, hmat, hgam, -, hterms⟩ :=
    massActionJSON.parse_ok_spec spec m h
  have hterm : ∀ t2 ∈ m.reaction_list, t2 ≠ [] := fun t2 ht2 => (hterms t2 ht2).1
  have hall : ∀ t2 ∈ m.reaction_list, ∀ v ∈ t2, v.length = m.species_name.length :=
    fun t2 ht2 => (hterms t2 ht2).2
  have hle : ∀ p ∈ spec.reactions, p.2.length ≤ 2 := by
    intro p hp
    rw [hfmt p hp]
    split <;> omega
  have hal := massActionJSON.terms_rates_len_align _ _ _ hfmt hok
  have hrates_len : m.rates_np.length = m.reaction_list.length := by
    rw [hrnp, List.length_map]
    have hval : (massActionJSON.get_rates spec.reactions).map Prod.snd =
        (spec.reactions.map Prod.snd).flatten := by
      rw [massActionJSON.get_rates_eq_named _ hle, massActionJSON.named_rates_from_snd]
    have h1 : (massActionJSON.get_rates spec.reactions).length =
        (spec.reactions.map Prod.snd).flatten.length := by
      rw [← hval, List.length_map]
    rw [h1, ← forall₂_flatten_length hal, ← hrl]
  have hR_len : m.reactants_matrix.length = m.reaction_list.length := by
    rw [hmat, List.length_map]
  have hR_row : ∀ j, j < m.reaction_list.length →
      (m.reactants_matrix.getD j []).length = m.species_name.length := by
    intro j hj
    rw [hmat, List.getD_eq_getElem _ _ (by simpa using hj), List.getElem_map]
    have htj : m.reaction_list[j] ∈ m.reaction_list := List.getElem_mem _
    exact hall _ htj _ (headD_mem _ [] (hterm _ htj))
  obtain ⟨hglen, hgrow⟩ := massActionCRN.get_gamma_shape m.reaction_list
    m.species_name.length hne hterm hall
  have hγlen : m.gamma.length = m.species_name.length := by rw [hgam]; exact hglen
  have hγrow : ∀ s, s < m.species_name.length →
      (m.gamma.getD s []).length = m.reaction_list.length := by
    intro s hs
    have : m.gamma.getD s [] ∈ m.gamma := by
      rw [List.getD_eq_getElem _ _ (by omega)]
      exact List.getElem_mem _
    rw [hgam] at this ⊢
    exact hgrow _ this
  have hspeed_len :
      (List.zipWith
        (fun row k =>
          (List.zipWith (fun xi r => xi ^ ((|r| : ℚ) : ℝ)) x row).prod * ((k : ℚ) : ℝ))
        m.reactants_matrix m.rates_np).length = m.reaction_list.length := by
    rw [List.length_zipWith, hR_len, hrates_len, min_self]
  constructor
  · simp only [massActionCRN.mass_action_dynamic, List.length_map]
    exact hγlen
  · intro s hs
    simp only [massActionCRN.mass_action_dynamic]
    rw [getD_map _ _ s [] 0 (by rw [hγlen]; exact hs)]
    rw [list_sum_getD]
    rw [show (List.zipWith (fun g sv => ((g : ℚ) : ℝ) * sv) (m.gamma.getD s [])
        (List.zipWith
          (fun row k =>
            (List.zipWith (fun xi r => xi ^ ((|r| : ℚ) : ℝ)) x row).prod * ((k : ℚ) : ℝ))
          m.reactants_matrix m.rates_np)).length = m.reaction_list.length from by
      rw [List.length_zipWith, hγrow s hs, hspeed_len, min_self]]
    apply Finset.sum_congr rfl
    intro j hj
    rw [Finset.mem_range] at hj
    rw [zipWith_getD _ _ _ j 0 0 0 (by rw [hγrow s hs]; exact hj)
      (by rw [hspeed_len]; exact hj)]
    rw [zipWith_getD _ _ _ j [] 0 0 (by rw [hR_len]; exact hj)
      (by rw [hrates_len]; exact hj)]
    rw [list_prod_getD]
    rw [show (List.zipWith (fun xi r => xi ^ ((|r| : ℚ) : ℝ)) x
        (m.reactants_matrix.getD j [])).length = m.species_name.length from by
      rw [List.length_zipWith, hx, hR_row j hj, min_self]]
    rw [show ∏ s2 ∈ Finset.range m.species_name.length,
        (List.zipWith (fun xi r => xi ^ ((|r| : ℚ) : ℝ)) x
          (m.reactants_matrix.getD j [])).getD s2 1 =
        ∏ s2 ∈ Finset.range m.species_name.length,
          (x.getD s2 1) ^ ((|(m.reactants_matrix.getD j []).getD s2 0| : ℚ) : ℝ) from by
      apply Finset.prod_congr rfl
      intro s2 hs2
      rw [Finset.mem_range] at hs2
      rw [zipWith_getD _ _ _ s2 1 0 1 (by rw [hx]; exact hs2)
        (by rw [hR_row j hj]; exact hs2)]]
    ring

/-- Witness for C2 at the concrete scenario, with state (1, 2, 3) and
time 0. -/
theorem C2_derivative_witness :
    (∀ p ∈ exampleSpec.reactions, p.2.length = if sepRev <:+: p.1 then 2 else 1) ∧
      massActionJSON.parse exampleSpec = .ok exampleCRN ∧
      ([(1 : ℝ), 2, 3].length = exampleCRN.species_name.length) ∧
      (massActionCRN.mass_action_dynamic exampleCRN [(1 : ℝ), 2, 3] 0).length =
        exampleCRN.species_name.length := by
  have hfmt : ∀ p ∈ exampleSpec.reactions, p.2.length = if sepRev <:+: p.1 then 2 else 1 := by
    decide
  have hx : ([(1 : ℝ), 2, 3].length = exampleCRN.species_name.length) := by decide
  exact ⟨hfmt, parse_exampleSpec, hx,
    (C2_derivative exampleSpec exampleCRN hfmt parse_exampleSpec [(1 : ℝ), 2, 3] 0 hx).1⟩
